import Mathlib

/-!
Verification development for the Frigate Home Assistant integration's HTTP
proxy (`custom_components/frigate/views.py`).

The source file defines a reverse proxy built from:
* per-route URL construction (`ClipsProxyView._create_url`,
  `RecordingsProxyView._create_url`, `NotificationsProxyView._create_url`),
  each delegating to `urllib.parse.urljoin`;
* a request-direction header sanitizer `_init_header` and a
  response-direction sanitizer `_response_header`, both of which build a
  plain Python `dict` from the inbound `CIMultiDict` items;
* a streaming request handler `ProxyView._handle_request` wrapped by
  `ProxyView.get`, which converts transport errors of the upstream call
  into an `HTTPBadGateway` (502) and swallows mid-stream errors.

Strings are embedded as `List Char`.  Header names are represented in the
canonical form produced by the header parser (multidict `istr`
canonicalisation), under which the comparisons performed by the source are
plain string equality; the same canonical constants from `aiohttp.hdrs`
are used on both sides, so the exact canonical spelling is irrelevant.
-/

set_option maxRecDepth 8000

namespace FrigateProxy

/-- Python strings are embedded as lists of characters. -/
abbrev Str := List Char

/-- Characters of a Lean string literal, used to write concrete Python strings. -/
def chars (s : String) : Str := s.data

/-- Python `str.split(sep)` for a single-character separator:
`"a//b".split("/") == ["a", "", "b"]`, `"".split("/") == [""]`. -/
def splitChar (sep : Char) : Str → List Str
  | [] => [[]]
  | c :: cs =>
    match splitChar sep cs with
    | [] => [[c]]
    | r :: rs => if c = sep then [] :: r :: rs else (c :: r) :: rs

/-- Python `sep.join(parts)` for a single-character separator. -/
def joinChar (sep : Char) : List Str → Str
  | [] => []
  | [s] => s
  | s :: r :: rest => s ++ sep :: joinChar sep (r :: rest)

/-- Python `str.partition(c)` restricted to reporting the pieces around the
first occurrence of `c`: `some (before, after)` when `c` occurs, `none`
otherwise.  Also models `str.find(c)` via the length of `before`. -/
def findSplit (c : Char) : Str → Option (Str × Str)
  | [] => none
  | x :: xs =>
    if x = c then some ([], xs)
    else
      match findSplit c xs with
      | none => none
      | some (a, b) => some (x :: a, b)

/-- Python `str.endswith(suf)`. -/
def endsWithB (l suf : Str) : Bool := decide (l.drop (l.length - suf.length) = suf)

/-- Lookup of the first value stored under a key in an association list.
For the items of a `CIMultiDict` this is exactly `CIMultiDict.get`
(the first value wins); for a Python `dict`, whose keys are unique,
it is `dict.__getitem__`. -/
def alook : List (Str × Str) → Str → Option Str
  | [], _ => none
  | (k, v) :: d, k' => if k = k' then some v else alook d k'

/-- Lookup of the last value stored under a key in an association list.
This is the value a Python `dict` built from the items ends up holding. -/
def lastLook : List (Str × Str) → Str → Option Str
  | [], _ => none
  | (k, v) :: d, k' =>
    match lastLook d k' with
    | some w => some w
    | none => if k = k' then some v else none

/-- Number of entries stored under a key. -/
def keyCount (d : List (Str × Str)) (k : Str) : Nat :=
  (d.filter fun p => decide (p.1 = k)).length

/-- Python `dict` assignment `d[k] = v`: if the key is present its value is
replaced in place (insertion order kept), otherwise the pair is appended. -/
def dictSet : List (Str × Str) → Str → Str → List (Str × Str)
  | [], k, v => [(k, v)]
  | (k', v') :: d, k, v =>
    if k' = k then (k', v) :: d else (k', v') :: dictSet d k v

/-- Building a Python `dict` by assigning the items of a list in order
(`for name, value in items: d[name] = value`): the last value for a
repeated key wins. -/
def dictOfItems (items : List (Str × Str)) : List (Str × Str) :=
  items.foldl (fun d p => dictSet d p.1 p.2) []

/-!
Model of `urllib.parse.urljoin`, the URL-resolution routine every
`_create_url` in the source delegates to.  It follows CPython's
`Lib/urllib/parse.py`: `urlsplit` (including the removal of the unsafe
bytes tab/CR/LF), `urlparse` (including the `params` component split at a
`;` in the last path segment and re-attached by `urlunparse`), and
`urljoin` on the parsed six-tuples.  Not modelled: the
bracketed-IPv6-host validation of `_splitnetloc` (it only raises on
malformed `[`/`]` hosts) and `_coerce_args` byte-string handling (all
inputs here are `str`).
-/

/-- CPython `scheme_chars`: characters allowed in a URL scheme. -/
def isSchemeChar (c : Char) : Bool :=
  c.isAlpha || c.isDigit || c == '+' || c == '-' || c == '.'

/-- Characters that terminate the network-location component. -/
def isNetlocEnd (c : Char) : Bool := c == '/' || c == '?' || c == '#'

/-- CPython `urllib.parse._UNSAFE_URL_BYTES_TO_REMOVE`: tab, CR and LF. -/
def isUnsafeUrlChar (c : Char) : Bool := c == '\t' || c == '\r' || c == '\n'

/-- The removal loop at the top of CPython `urlsplit`: every unsafe byte
is removed from the url and from the default scheme. -/
def stripUnsafe (s : Str) : Str := s.filter (fun c => !isUnsafeUrlChar c)

/-- Result of `urlsplit`: scheme, netloc, path, query, fragment. -/
structure SplitResult where
  scheme : Str
  netloc : Str
  path : Str
  query : Str
  fragment : Str
deriving DecidableEq

/-- Scheme recognition of CPython `urlsplit`: the part before the first
`:` is the scheme when it is nonempty, starts with a letter and is made of
scheme characters; it is lower-cased, and the default is returned with the
whole url otherwise.  Returns `(scheme, remainder)`. -/
def splitScheme (defaultScheme url : Str) : Str × Str :=
  match findSplit ':' url with
  | some (before, after) =>
    if before ≠ [] ∧ (before.headD ' ').isAlpha = true ∧ before.all isSchemeChar = true
    then (before.map Char.toLower, after)
    else (defaultScheme, url)
  | none => (defaultScheme, url)

/-- Netloc recognition of CPython `urlsplit`: `if url[:2] == '//'` the
netloc runs up to the next `/`, `?` or `#`.  Returns `(netloc, remainder)`. -/
def splitNetloc (rest : Str) : Str × Str :=
  if rest.take 2 = chars "//" then
    ((rest.drop 2).takeWhile (fun c => !isNetlocEnd c),
     (rest.drop 2).dropWhile (fun c => !isNetlocEnd c))
  else ([], rest)

/-- Fragment split of CPython `urlsplit`: `url.partition('#')`.
Returns `(remainder, fragment)`. -/
def splitFragment (rest : Str) : Str × Str :=
  match findSplit '#' rest with
  | some (a, b) => (a, b)
  | none => (rest, [])

/-- Query split of CPython `urlsplit`: `url.partition('?')`.
Returns `(path, query)`. -/
def splitQuery (rest : Str) : Str × Str :=
  match findSplit '?' rest with
  | some (a, b) => (a, b)
  | none => (rest, [])

/-- CPython `urllib.parse.urlsplit(url, scheme=defaultScheme)`:
unsafe bytes removed, then scheme, then netloc, then the fragment at the
first `#`, then the query at the first `?` in what precedes the
fragment. -/
def urlsplit (defaultScheme url : Str) : SplitResult :=
  let sr := splitScheme (stripUnsafe defaultScheme) (stripUnsafe url)
  let nr := splitNetloc sr.2
  let fr := splitFragment nr.2
  let pq := splitQuery fr.1
  ⟨sr.1, nr.1, pq.1, pq.2, fr.2⟩

/-- Result of `urlparse`: `urlsplit` plus the `params` component. -/
structure ParseResult where
  scheme : Str
  netloc : Str
  path : Str
  params : Str
  query : Str
  fragment : Str
deriving DecidableEq

/-- CPython `urllib.parse.uses_params`. -/
def uses_params : List Str :=
  [chars "", chars "ftp", chars "hdl", chars "prospero", chars "http",
   chars "imap", chars "mailto", chars "news", chars "nntp", chars "telnet",
   chars "rtsp", chars "rtspu", chars "sip", chars "sips", chars "mms",
   chars "sftp", chars "tel"]

/-- Python `str.rfind('/')` as a split: `some (a, b)` with
`url = a ++ '/' :: b` and no `/` in `b`, `none` when there is no `/`. -/
def splitAtLastSlash : Str → Option (Str × Str)
  | [] => none
  | c :: cs =>
    match splitAtLastSlash cs with
    | some (a, b) => some (c :: a, b)
    | none => if c = '/' then some ([], cs) else none

/-- CPython `urllib.parse._splitparams`: split `;params` off the last
path segment (`i = url.find(';', url.rfind('/'))` when the path has a
`/`, else the first `;`).  Only called by `urlparse` when the path
contains a `;`. -/
def splitparams (url : Str) : Str × Str :=
  match splitAtLastSlash url with
  | some (a, b) =>
    match findSplit ';' b with
    | some (p, q) => (a ++ '/' :: p, q)
    | none => (url, [])
  | none =>
    match findSplit ';' url with
    | some (p, q) => (p, q)
    | none => (url, [])

/-- CPython `urllib.parse.urlparse(url, scheme=defaultScheme)`:
`urlsplit`, then the `params` split when the scheme uses params and the
path contains a `;`. -/
def urlparse (defaultScheme url : Str) : ParseResult :=
  let s := urlsplit defaultScheme url
  if s.scheme ∈ uses_params ∧ ';' ∈ s.path then
    ⟨s.scheme, s.netloc, (splitparams s.path).1, (splitparams s.path).2,
     s.query, s.fragment⟩
  else
    ⟨s.scheme, s.netloc, s.path, [], s.query, s.fragment⟩

/-- CPython `urllib.parse.urlunsplit`. -/
def urlunsplit (u : SplitResult) : Str :=
  let url0 := u.path
  let url1 :=
    if u.netloc ≠ [] ∨ (url0 ≠ [] ∧ url0.take 2 = chars "//") then
      chars "//" ++ u.netloc ++
        (if url0 ≠ [] ∧ url0.take 1 ≠ chars "/" then '/' :: url0 else url0)
    else url0
  let url2 := if u.scheme ≠ [] then u.scheme ++ ':' :: url1 else url1
  let url3 := if u.query ≠ [] then url2 ++ '?' :: u.query else url2
  if u.fragment ≠ [] then url3 ++ '#' :: u.fragment else url3

/-- CPython `urllib.parse.urlunparse`: the params are re-attached to the
path with a `;` when nonempty, then `urlunsplit`. -/
def urlunparse (u : ParseResult) : Str :=
  urlunsplit ⟨u.scheme, u.netloc,
    (if u.params ≠ [] then u.path ++ ';' :: u.params else u.path),
    u.query, u.fragment⟩

/-- CPython `urllib.parse.uses_relative`. -/
def uses_relative : List Str :=
  [chars "", chars "ftp", chars "http", chars "gopher", chars "nntp",
   chars "imap", chars "wais", chars "file", chars "https", chars "shttp",
   chars "mms", chars "prospero", chars "rtsp", chars "rtspu", chars "sftp",
   chars "svn", chars "svn+ssh", chars "ws", chars "wss"]

/-- CPython `urllib.parse.uses_netloc`. -/
def uses_netloc : List Str :=
  [chars "", chars "ftp", chars "http", chars "gopher", chars "nntp",
   chars "telnet", chars "imap", chars "wais", chars "file", chars "mms",
   chars "https", chars "shttp", chars "snews", chars "prospero",
   chars "rtsp", chars "rtspu", chars "rsync", chars "svn",
   chars "svn+ssh", chars "sftp", chars "nfs", chars "git",
   chars "git+ssh", chars "ws", chars "wss", chars "itms-services"]

/-- The dot-segment resolution loop of CPython `urljoin`: `..` pops the
accumulated path (ignoring underflow), `.` is skipped, anything else is
appended. -/
def resolveSegs (acc : List Str) : List Str → List Str
  | [] => acc
  | s :: rest =>
    if s = chars ".." then resolveSegs acc.dropLast rest
    else if s = chars "." then resolveSegs acc rest
    else resolveSegs (acc ++ [s]) rest

/-- CPython `urljoin`'s `segments[1:-1] = filter(None, segments[1:-1])`:
empty middle segments are removed, keeping the first and last. -/
def filterMid : List Str → List Str
  | [] => []
  | [s] => [s]
  | s :: rest =>
    s :: (rest.dropLast.filter (fun x => decide (x ≠ [])) ++ [rest.getLastD []])

/-- The body of CPython `urljoin` after both URLs are parsed: `b` is the
parse of the base, `u` the parse of the url against the base's scheme,
`url` the original second argument (returned unchanged when the scheme is
not relative-capable). -/
def joinParts (b u : ParseResult) (url : Str) : Str :=
  if u.scheme ≠ b.scheme ∨ u.scheme ∉ uses_relative then url
  else if u.scheme ∈ uses_netloc ∧ u.netloc ≠ [] then
    urlunparse ⟨u.scheme, u.netloc, u.path, u.params, u.query, u.fragment⟩
  else
    let netloc := if u.scheme ∈ uses_netloc then b.netloc else u.netloc
    if u.path = [] ∧ u.params = [] then
      urlunparse ⟨u.scheme, netloc, b.path, b.params,
        (if u.query = [] then b.query else u.query), u.fragment⟩
    else
      let bp := splitChar '/' b.path
      let base_parts := if bp.getLastD [] ≠ [] then bp.dropLast else bp
      let segments :=
        if u.path.take 1 = chars "/" then splitChar '/' u.path
        else filterMid (base_parts ++ splitChar '/' u.path)
      let resolved := resolveSegs [] segments
      let resolved :=
        if segments.getLastD [] = chars "." ∨ segments.getLastD [] = chars ".."
        then resolved ++ [[]] else resolved
      let joined := joinChar '/' resolved
      urlunparse ⟨u.scheme, netloc,
        (if joined = [] then chars "/" else joined), u.params, u.query, u.fragment⟩

/-- CPython `urllib.parse.urljoin(base, url)`. -/
def urljoin (base url : Str) : Str :=
  if base = [] then url
  else if url = [] then base
  else joinParts (urlparse [] base) (urlparse (urlparse [] base).scheme url) url

/-! Basic lemmas about the string utilities. -/

theorem splitChar_ne_nil (sep : Char) (l : Str) : splitChar sep l ≠ [] := by
  cases l with
  | nil => simp [splitChar]
  | cons c cs =>
    rcases hr : splitChar sep cs with _ | ⟨r, rs⟩
    · simp [splitChar, hr]
    · simp only [splitChar, hr]
      split <;> simp

theorem joinChar_splitChar (sep : Char) (l : Str) :
    joinChar sep (splitChar sep l) = l := by
  induction l with
  | nil => rfl
  | cons c cs ih =>
    rcases hr : splitChar sep cs with _ | ⟨h, t⟩
    · exact absurd hr (splitChar_ne_nil sep cs)
    · rw [hr] at ih
      by_cases hc : c = sep
      · subst hc
        simp [splitChar, hr, joinChar, ih]
      · simp only [splitChar, hr, if_neg hc]
        cases t with
        | nil => simpa [joinChar] using congrArg (c :: ·) ih
        | cons t0 ts => simpa [joinChar] using congrArg (c :: ·) ih

theorem splitChar_no_sep (sep : Char) (l : Str) (h : sep ∉ l) :
    splitChar sep l = [l] := by
  induction l with
  | nil => rfl
  | cons c cs ih =>
    have hc : ¬ c = sep := fun hc => h (hc ▸ List.mem_cons_self c cs)
    have hcs : sep ∉ cs := fun hm => h (List.mem_cons_of_mem c hm)
    simp [splitChar, hc, ih hcs]

theorem splitChar_append_cons (sep : Char) (a b : Str) (h : sep ∉ a) :
    splitChar sep (a ++ sep :: b) = a :: splitChar sep b := by
  induction a with
  | nil =>
    rcases hr : splitChar sep b with _ | ⟨r, rs⟩
    · exact absurd hr (splitChar_ne_nil sep b)
    · simp [splitChar, hr]
  | cons c cs ih =>
    have hc : ¬ c = sep := fun hc => h (hc ▸ List.mem_cons_self c cs)
    have hcs : sep ∉ cs := fun hm => h (List.mem_cons_of_mem c hm)
    have h2 := ih hcs
    show splitChar sep (c :: (cs ++ sep :: b)) = (c :: cs) :: splitChar sep b
    simp [splitChar, h2, if_neg hc]

theorem splitChar_head_takeWhile (sep : Char) (l : Str) :
    (splitChar sep l).headD [] = l.takeWhile (fun c => !decide (c = sep)) := by
  induction l with
  | nil => rfl
  | cons c cs ih =>
    rcases hr : splitChar sep cs with _ | ⟨h, t⟩
    · exact absurd hr (splitChar_ne_nil sep cs)
    · rw [hr] at ih
      by_cases hc : c = sep
      · subst hc; simp [splitChar, hr, List.takeWhile]
      · simp only [splitChar, hr, if_neg hc, List.takeWhile]
        simp only [List.headD] at ih ⊢
        simp [hc, ih]

theorem findSplit_eq_none (c : Char) (l : Str) (h : c ∉ l) :
    findSplit c l = none := by
  induction l with
  | nil => rfl
  | cons x xs ih =>
    have hx : ¬ x = c := fun hx => h (hx ▸ List.mem_cons_self x xs)
    have hxs : c ∉ xs := fun hm => h (List.mem_cons_of_mem x hm)
    simp [findSplit, hx, ih hxs]

theorem findSplit_append_cons (c : Char) (a b : Str) (h : c ∉ a) :
    findSplit c (a ++ c :: b) = some (a, b) := by
  induction a with
  | nil => simp [findSplit]
  | cons x xs ih =>
    have hx : ¬ x = c := fun hx => h (hx ▸ List.mem_cons_self x xs)
    have hxs : c ∉ xs := fun hm => h (List.mem_cons_of_mem x hm)
    simp [findSplit, hx, ih hxs]

theorem findSplit_eq_some (c : Char) :
    ∀ l a b : Str, findSplit c l = some (a, b) → l = a ++ c :: b ∧ c ∉ a := by
  intro l
  induction l with
  | nil => intro a b h; simp [findSplit] at h
  | cons x xs ih =>
    intro a b h
    by_cases hx : x = c
    · subst hx
      simp only [findSplit, if_pos rfl] at h
      obtain ⟨rfl, rfl⟩ : ([] : Str) = a ∧ xs = b := by simpa using h
      simp
    · simp only [findSplit, if_neg hx] at h
      rcases hr : findSplit c xs with _ | p
      · rw [hr] at h; simp at h
      · obtain ⟨a', b'⟩ := p
        rw [hr] at h
        obtain ⟨rfl, rfl⟩ : x :: a' = a ∧ b' = b := by simpa using h
        obtain ⟨hl, hm⟩ := ih a' b' hr
        refine ⟨by simp [hl], ?_⟩
        intro hmem
        rcases List.mem_cons.mp hmem with h1 | h2
        · exact hx h1.symm
        · exact hm h2

theorem endsWithB_iff (l suf : Str) :
    endsWithB l suf = true ↔ ∃ t, l = t ++ suf := by
  constructor
  · intro h
    have hd : l.drop (l.length - suf.length) = suf := by
      simpa [endsWithB] using h
    refine ⟨l.take (l.length - suf.length), ?_⟩
    conv_lhs => rw [← List.take_append_drop (l.length - suf.length) l]
    rw [hd]
  · rintro ⟨t, rfl⟩
    have hlen : (t ++ suf).length - suf.length = t.length := by
      simp [List.length_append]
    simp [endsWithB, hlen, List.drop_left]

theorem takeWhile_append_all (p : Char → Bool) (a b : Str)
    (h : ∀ x ∈ a, p x = true) :
    (a ++ b).takeWhile p = a ++ b.takeWhile p := by
  induction a with
  | nil => simp
  | cons x xs ih =>
    have hx : p x = true := h x (List.mem_cons_self x xs)
    have hxs : ∀ y ∈ xs, p y = true := fun y hy => h y (List.mem_cons_of_mem x hy)
    simp [List.takeWhile, hx, ih hxs]

theorem dropWhile_append_all (p : Char → Bool) (a b : Str)
    (h : ∀ x ∈ a, p x = true) :
    (a ++ b).dropWhile p = b.dropWhile p := by
  induction a with
  | nil => simp
  | cons x xs ih =>
    have hx : p x = true := h x (List.mem_cons_self x xs)
    have hxs : ∀ y ∈ xs, p y = true := fun y hy => h y (List.mem_cons_of_mem x hy)
    simp [List.dropWhile, hx, ih hxs]

/-! Lemmas about the Python `dict` model. -/

/-- Keys of an association list are pairwise distinct; invariant of every
Python `dict`. -/
def keysDistinct (d : List (Str × Str)) : Prop :=
  d.Pairwise fun a b => a.1 ≠ b.1

theorem alook_eq_none_iff (d : List (Str × Str)) (k : Str) :
    alook d k = none ↔ ∀ q ∈ d, q.1 ≠ k := by
  induction d with
  | nil => simp [alook]
  | cons p rest ih =>
    obtain ⟨k₀, v₀⟩ := p
    by_cases hk : k₀ = k
    · subst hk; simp [alook]
    · simp [alook, hk, ih]

theorem lastLook_eq_none_iff (d : List (Str × Str)) (k : Str) :
    lastLook d k = none ↔ ∀ q ∈ d, q.1 ≠ k := by
  induction d with
  | nil => simp [lastLook]
  | cons p rest ih =>
    obtain ⟨k₀, v₀⟩ := p
    simp only [lastLook]
    rcases hr : lastLook rest k with _ | w
    · have hrest : ∀ q ∈ rest, q.1 ≠ k := ih.mp hr
      by_cases hk : k₀ = k
      · subst hk
        simp only [if_pos rfl]
        constructor
        · intro h; simp at h
        · intro h
          exact absurd rfl (h (k₀, v₀) (List.mem_cons_self _ _))
      · simp only [if_neg hk]
        constructor
        · intro _ q hq
          rcases List.mem_cons.mp hq with h1 | h2
          · rw [h1]; exact hk
          · exact hrest q h2
        · intro _; trivial
    · constructor
      · intro h; simp at h
      · intro h
        have hn : lastLook rest k = none :=
          ih.mpr fun q hq => h q (List.mem_cons_of_mem _ hq)
        rw [hr] at hn
        simp at hn

theorem alook_dictSet_self (d : List (Str × Str)) (k v : Str) :
    alook (dictSet d k v) k = some v := by
  induction d with
  | nil => simp [dictSet, alook]
  | cons p rest ih =>
    obtain ⟨k₀, v₀⟩ := p
    by_cases hk : k₀ = k
    · subst hk; simp [dictSet, alook]
    · simp [dictSet, alook, hk, ih]

theorem alook_dictSet_ne (d : List (Str × Str)) (k' v k : Str) (h : k' ≠ k) :
    alook (dictSet d k' v) k = alook d k := by
  induction d with
  | nil => simp [dictSet, alook, h]
  | cons p rest ih =>
    obtain ⟨k₀, v₀⟩ := p
    by_cases hk : k₀ = k'
    · subst hk; simp [dictSet, alook, h]
    · simp only [dictSet, if_neg hk, alook]
      by_cases hk2 : k₀ = k
      · simp [hk2]
      · simp [hk2, ih]

theorem dictSet_key_cases (d : List (Str × Str)) (k v : Str) :
    ∀ p ∈ dictSet d k v, p.1 = k ∨ ∃ q ∈ d, p.1 = q.1 := by
  induction d with
  | nil =>
    intro p hp
    simp [dictSet] at hp
    simp [hp]
  | cons q0 rest ih =>
    obtain ⟨k₀, v₀⟩ := q0
    intro p hp
    by_cases hk : k₀ = k
    · rw [show dictSet ((k₀, v₀) :: rest) k v = (k₀, v) :: rest from by
        simp [dictSet, hk]] at hp
      rcases List.mem_cons.mp hp with h1 | h2
      · exact Or.inl (by rw [h1]; exact hk)
      · exact Or.inr ⟨p, List.mem_cons_of_mem _ h2, rfl⟩
    · rw [show dictSet ((k₀, v₀) :: rest) k v = (k₀, v₀) :: dictSet rest k v from by
        simp [dictSet, hk]] at hp
      rcases List.mem_cons.mp hp with h1 | h2
      · exact Or.inr ⟨(k₀, v₀), List.mem_cons_self _ _, by rw [h1]⟩
      · rcases ih p h2 with h | ⟨q, hq, he⟩
        · exact Or.inl h
        · exact Or.inr ⟨q, List.mem_cons_of_mem _ hq, he⟩

theorem keysDistinct_dictSet (d : List (Str × Str)) (k v : Str)
    (h : keysDistinct d) : keysDistinct (dictSet d k v) := by
  induction d with
  | nil => simp [dictSet, keysDistinct]
  | cons p rest ih =>
    obtain ⟨k₀, v₀⟩ := p
    simp only [keysDistinct, List.pairwise_cons] at h
    obtain ⟨hhead, htail⟩ := h
    by_cases hk : k₀ = k
    · rw [show dictSet ((k₀, v₀) :: rest) k v = (k₀, v) :: rest from by
        simp [dictSet, hk]]
      simp only [keysDistinct, List.pairwise_cons]
      refine ⟨?_, htail⟩
      intro q hq
      simpa using hhead q hq
    · rw [show dictSet ((k₀, v₀) :: rest) k v = (k₀, v₀) :: dictSet rest k v from by
        simp [dictSet, hk]]
      simp only [keysDistinct, List.pairwise_cons]
      refine ⟨?_, ih htail⟩
      intro q hq
      rcases dictSet_key_cases rest k v q hq with h1 | ⟨q', hq', he'⟩
      · simpa [h1] using hk
      · rw [he']
        exact hhead q' hq'

theorem dictOfItems_snoc (items : List (Str × Str)) (k v : Str) :
    dictOfItems (items ++ [(k, v)]) = dictSet (dictOfItems items) k v := by
  simp [dictOfItems, List.foldl_append]

theorem lastLook_append (a b : List (Str × Str)) (k : Str) :
    lastLook (a ++ b) k =
      match lastLook b k with
      | some w => some w
      | none => lastLook a k := by
  induction a with
  | nil =>
    simp only [List.nil_append]
    cases hr : lastLook b k <;> simp [lastLook, hr]
  | cons p rest ih =>
    obtain ⟨k₀, v₀⟩ := p
    simp only [List.cons_append, lastLook, List.append_eq]
    rw [ih]
    cases hb : lastLook b k <;> cases hrest : lastLook rest k <;> simp

theorem alook_dictOfItems (items : List (Str × Str)) (k : Str) :
    alook (dictOfItems items) k = lastLook items k := by
  induction items using List.reverseRecOn with
  | nil => simp [dictOfItems, alook, lastLook]
  | append_singleton l p ih =>
    obtain ⟨k₀, v₀⟩ := p
    rw [dictOfItems_snoc, lastLook_append]
    by_cases hk : k₀ = k
    · subst hk
      simp [alook_dictSet_self, lastLook]
    · rw [alook_dictSet_ne _ _ _ _ hk, ih]
      cases hr : lastLook l k <;> simp [lastLook, hk, hr]

theorem keysDistinct_dictOfItems (items : List (Str × Str)) :
    keysDistinct (dictOfItems items) := by
  induction items using List.reverseRecOn with
  | nil => simp [dictOfItems, keysDistinct]
  | append_singleton l p ih =>
    rw [dictOfItems_snoc]
    exact keysDistinct_dictSet _ _ _ ih

theorem keyCount_eq_zero (d : List (Str × Str)) (k : Str)
    (h : ∀ q ∈ d, q.1 ≠ k) : keyCount d k = 0 := by
  simp only [keyCount, List.length_eq_zero]
  rw [List.filter_eq_nil_iff]
  intro p hp
  simpa using h p hp

theorem keyCount_eq_one (d : List (Str × Str)) (k : Str)
    (hd : keysDistinct d) (hm : ∃ q ∈ d, q.1 = k) : keyCount d k = 1 := by
  induction d with
  | nil => simp at hm
  | cons p rest ih =>
    obtain ⟨k₀, v₀⟩ := p
    rw [keysDistinct, List.pairwise_cons] at hd
    obtain ⟨hhead, htail⟩ := hd
    by_cases hk : k₀ = k
    · subst hk
      have hz : keyCount rest k₀ = 0 :=
        keyCount_eq_zero rest k₀ fun q hq => Ne.symm (hhead q hq)
      have hfc : List.filter (fun p => decide (p.1 = k₀)) ((k₀, v₀) :: rest)
          = (k₀, v₀) :: List.filter (fun p => decide (p.1 = k₀)) rest := by
        simp [List.filter_cons]
      simp only [keyCount, hfc, List.length_cons]
      simp only [keyCount] at hz
      omega
    · rcases hm with ⟨q, hq, he⟩
      rcases List.mem_cons.mp hq with h1 | h2
      · rw [h1] at he; exact absurd he hk
      · have hc := ih htail ⟨q, h2, he⟩
        have hfc : List.filter (fun p => decide (p.1 = k)) ((k₀, v₀) :: rest)
            = List.filter (fun p => decide (p.1 = k)) rest := by
          simp [List.filter_cons, hk]
        simp only [keyCount, hfc]
        simpa [keyCount] using hc

theorem lastLook_filter (f : Str × Str → Bool) (items : List (Str × Str)) (k : Str)
    (h : ∀ p ∈ items, p.1 = k → f p = true) :
    lastLook (items.filter f) k = lastLook items k := by
  induction items with
  | nil => simp
  | cons p rest ih =>
    obtain ⟨k₀, v₀⟩ := p
    have hrest : ∀ q ∈ rest, q.1 = k → f q = true :=
      fun q hq => h q (List.mem_cons_of_mem _ hq)
    cases hf : f (k₀, v₀) with
    | true =>
      rw [List.filter_cons, if_pos (by simp [hf])]
      simp only [lastLook, ih hrest]
    | false =>
      have hk : k₀ ≠ k := by
        intro hkk
        rw [h (k₀, v₀) (List.mem_cons_self _ _) hkk] at hf
        simp at hf
      rw [List.filter_cons, if_neg (by simp [hf]), ih hrest]
      simp only [lastLook]
      cases hr : lastLook rest k <;> simp [hk]

theorem getLastD_mem (l : List Str) (d : Str) (h : l ≠ []) : l.getLastD d ∈ l := by
  induction l generalizing d with
  | nil => exact absurd rfl h
  | cons x xs ih =>
    cases xs with
    | nil => simp [List.getLastD]
    | cons y ys =>
      have := ih x (by simp)
      exact List.mem_cons_of_mem x this

/-!
Embedding of `custom_components/frigate/views.py`.

Header names are written in the canonical form used by the `aiohttp.hdrs`
constants; the header parser canonicalises inbound names to the same form
(multidict `istr`), so the `in`-comparisons of the source are plain string
equality here.
-/

/-- Constant `aiohttp.hdrs.CONTENT_LENGTH`. -/
def CONTENT_LENGTH : Str := chars "Content-Length"

/-- Constant `aiohttp.hdrs.CONTENT_ENCODING`. -/
def CONTENT_ENCODING : Str := chars "Content-Encoding"

/-- Constant `aiohttp.hdrs.CONTENT_TYPE`. -/
def CONTENT_TYPE : Str := chars "Content-Type"

/-- Constant `aiohttp.hdrs.TRANSFER_ENCODING`. -/
def TRANSFER_ENCODING : Str := chars "Transfer-Encoding"

/-- Constant `aiohttp.hdrs.SEC_WEBSOCKET_EXTENSIONS`. -/
def SEC_WEBSOCKET_EXTENSIONS : Str := chars "Sec-WebSocket-Extensions"

/-- Constant `aiohttp.hdrs.SEC_WEBSOCKET_PROTOCOL`. -/
def SEC_WEBSOCKET_PROTOCOL : Str := chars "Sec-WebSocket-Protocol"

/-- Constant `aiohttp.hdrs.SEC_WEBSOCKET_VERSION`. -/
def SEC_WEBSOCKET_VERSION : Str := chars "Sec-WebSocket-Version"

/-- Constant `aiohttp.hdrs.SEC_WEBSOCKET_KEY`. -/
def SEC_WEBSOCKET_KEY : Str := chars "Sec-WebSocket-Key"

/-- Constant `aiohttp.hdrs.X_FORWARDED_FOR`. -/
def X_FORWARDED_FOR : Str := chars "X-Forwarded-For"

/-- Constant `aiohttp.hdrs.X_FORWARDED_HOST`. -/
def X_FORWARDED_HOST : Str := chars "X-Forwarded-Host"

/-- Constant `aiohttp.hdrs.X_FORWARDED_PROTO`. -/
def X_FORWARDED_PROTO : Str := chars "X-Forwarded-Proto"

/-- Constant `homeassistant.const.HTTP_NOT_FOUND`. -/
def HTTP_NOT_FOUND : Nat := 404

/-- The tuple of header names skipped by the filter loop of `_init_header`
(`views.py` lines 135-142). -/
def requestFilterHeaders : List Str :=
  [CONTENT_LENGTH, CONTENT_ENCODING, SEC_WEBSOCKET_EXTENSIONS,
   SEC_WEBSOCKET_PROTOCOL, SEC_WEBSOCKET_VERSION, SEC_WEBSOCKET_KEY]

/-- The tuple of header names skipped by the filter loop of
`_response_header` (`views.py` lines 175-182); `CONTENT_LENGTH` is
commented out in the source and hence kept. -/
def responseFilterHeaders : List Str :=
  [TRANSFER_ENCODING, CONTENT_TYPE, CONTENT_ENCODING]

/-- The three forwarding headers rewritten by `_init_header`. -/
def forwardingHeaders : List Str :=
  [X_FORWARDED_FOR, X_FORWARDED_HOST, X_FORWARDED_PROTO]

/-- The inbound `web.Request` as `_init_header` observes it:
`headers` are the items of the request's `CIMultiDict` in order with
duplicates kept; `peer` is `str(ip_address(transport.get_extra_info
("peername")[0]))`, the canonical literal of the peer IP; `host` is
`request.host`; `scheme` is `request.url.scheme`. -/
structure InboundRequest where
  headers : List (Str × Str)
  peer : Str
  host : Str
  scheme : Str

/-- Python truthiness of an `Optional[str]`: `None` and `""` are falsy. -/
def optStrTruthy : Option Str → Bool
  | none => false
  | some s => !s.isEmpty

/-- Local variable `forward_for` of `_init_header` (`views.py` lines
147-152): `request.headers.get` yields the first value of the header;
`if forward_for:` treats an empty string like an absent header. -/
def forwardForValue (request : InboundRequest) : Str :=
  match alook request.headers X_FORWARDED_FOR with
  | some v => if v ≠ [] then v ++ chars ", " ++ request.peer else request.peer
  | none => request.peer

/-- Local variable `forward_host` of `_init_header` (`views.py` lines
156-158). -/
def forwardHostValue (request : InboundRequest) : Str :=
  match alook request.headers X_FORWARDED_HOST with
  | some v => if v ≠ [] then v else request.host
  | none => request.host

/-- Local variable `forward_proto` of `_init_header` (`views.py` lines
162-164). -/
def forwardProtoValue (request : InboundRequest) : Str :=
  match alook request.headers X_FORWARDED_PROTO with
  | some v => if v ≠ [] then v else request.scheme
  | none => request.scheme

/-- Embedding of `_init_header` (`views.py` lines 129-167): copy all
items except the six filtered names into a fresh `dict`, then overwrite
`X-Forwarded-For`, `X-Forwarded-Host` and `X-Forwarded-Proto`. -/
def init_header (request : InboundRequest) : List (Str × Str) :=
  let headers :=
    dictOfItems (request.headers.filter
      fun p => decide (p.1 ∉ requestFilterHeaders))
  let headers := dictSet headers X_FORWARDED_FOR (forwardForValue request)
  let headers := dictSet headers X_FORWARDED_HOST (forwardHostValue request)
  dictSet headers X_FORWARDED_PROTO (forwardProtoValue request)

/-- Embedding of `_response_header` (`views.py` lines 170-186): copy all
upstream response header items except the three filtered names into a
fresh `dict`. -/
def response_header (headers : List (Str × Str)) : List (Str × Str) :=
  dictOfItems (headers.filter fun p => decide (p.1 ∉ responseFilterHeaders))

/-- Embedding of `ClipsProxyView._create_url` (`views.py` lines 90-92). -/
def ClipsProxyView_create_url (host path : Str) : Str :=
  urljoin host (chars "/clips/" ++ path)

/-- Embedding of `RecordingsProxyView._create_url`
(`views.py` lines 101-103). -/
def RecordingsProxyView_create_url (host path : Str) : Str :=
  urljoin host (chars "/recordings/" ++ path)

/-- Embedding of `NotificationsProxyView._create_url`
(`views.py` lines 113-126); the fall-through of the Python function
returns `None`, embedded as `none`. -/
def NotificationsProxyView_create_url (host event_id path : Str) : Option Str :=
  if path = chars "thumbnail.jpg" then
    some (urljoin host (chars "/api/events/" ++ event_id ++ chars "/thumbnail.jpg"))
  else if path = chars "snapshot.jpg" then
    some (urljoin host (chars "/api/events/" ++ event_id ++ chars "/snapshot.jpg"))
  else
    let camera := (splitChar '/' path).headD []
    if endsWithB path (chars "clip.mp4") then
      some (urljoin host (chars "/clips/" ++ camera ++ chars "-" ++ event_id ++ chars ".mp4"))
    else none

/-!
Embedding of the request lifecycle (`ProxyView.get` and
`ProxyView._handle_request`, `views.py` lines 34-81).

The asynchronous control flow is embedded as explicit outcome passing:
the upstream call (`websession.request`) either raises
`aiohttp.ClientError` or yields a response whose body is iterated in
4096-byte chunks (`result.content.iter_chunked(4096)`), each read either
producing a chunk or raising the caught error kinds
(`aiohttp.ClientError`, `aiohttp.ClientPayloadError`).  The method, query
string and buffered request body are passed to the upstream call
unchanged and play no role in the verified properties, so the upstream
call is abstracted as its outcome.
-/

/-- One read from the upstream body iterator
(`result.content.iter_chunked(4096)`): a 4096-byte chunk, or a transport
failure of the kinds the `except` clause at lines 78-79 names
(`aiohttp.ClientError`, `aiohttp.ClientPayloadError`). -/
inductive StreamEvent where
  | chunk (data : Str)
  | readError
deriving DecidableEq

/-- How the chunk-copy loop of lines 75-76 stops: the upstream body is
exhausted; an upstream read raised one of the caught error kinds; or a
write to the client raised `ConnectionResetError` (aiohttp's
`http_writer` raises it for a closing transport), which is none of the
names in the `except` clause. -/
inductive StreamStop where
  | exhausted
  | readError
  | writeError
deriving DecidableEq

/-- The upstream response observed through `websession.request`. -/
structure UpstreamResponse where
  status : Nat
  headers : List (Str × Str)
  content_type : Str
  body : List StreamEvent
deriving DecidableEq

/-- Outcome of the upstream call itself: a response, or a transport-level
`aiohttp.ClientError`. -/
inductive UpstreamBehavior where
  | respond (r : UpstreamResponse)
  | fail
deriving DecidableEq

/-- The response as the client sees it: a plain bodyful response
(`web.Response` and the framework's rendering of `HTTPBadGateway`), or the
streamed response with the chunks actually written after the prologue. -/
inductive ClientResponse where
  | plain (status : Nat) (body : Str)
  | streamed (status : Nat) (headers : List (Str × Str)) (content_type : Str)
      (chunks : List Str) (truncated : Bool)
deriving DecidableEq

/-- Outcome of `_handle_request` as its caller observes it: a normally
returned response; an `aiohttp.ClientError` escaping (the upstream call
failed), which `get` catches; or a `ConnectionResetError` escaping from a
client write, which neither `except` clause names — `written` records the
chunks the client had received before the failure. -/
inductive HandleResult where
  | response (r : ClientResponse)
  | clientError
  | connError (written : List Str)
deriving DecidableEq

/-- Outcome of `ProxyView.get`: a response handed to the framework, or an
uncaught exception propagating past `get` to the framework's own handler
(`written` records the chunks the client had received). -/
inductive GetOutcome where
  | response (r : ClientResponse)
  | uncaught (written : List Str)
deriving DecidableEq

/-- The two `_LOGGER.debug` call sites of the source. -/
inductive LogSite where
  | reverseProxyError
  | streamError
deriving DecidableEq

/-- One emitted log record: both source call sites log at debug level and
format the request's `rel_url` together with the caught error. -/
structure LogEntry where
  site : LogSite
  relUrl : Str
deriving DecidableEq

/-- Result of `_handle_request`: its outcome, the number of upstream
HTTP calls made, and the debug log records emitted. -/
structure HandleOut where
  outcome : HandleResult
  upstreamCalls : Nat
  logs : List LogEntry
deriving DecidableEq

/-- The chunk-copy loop (`views.py` lines 75-76) under the surrounding
`try` (lines 73-79).  The client is modelled by `accept`, the number of
chunk writes its transport accepts before closing (`none`: the client
stays connected): each upstream read yields a chunk that is then written,
until the body is exhausted, an upstream read raises a caught error kind,
or a write to the closed transport raises `ConnectionResetError`.
Returns the chunks the client received and how the loop stopped. -/
def copyChunks : List StreamEvent → Option Nat → List Str × StreamStop
  | [], _ => ([], .exhausted)
  | .readError :: _, _ => ([], .readError)
  | .chunk _ :: _, some 0 => ([], .writeError)
  | .chunk d :: rest, some (k + 1) =>
    let (cs, s) := copyChunks rest (some k)
    (d :: cs, s)
  | .chunk d :: rest, none =>
    let (cs, s) := copyChunks rest none
    (d :: cs, s)

/-- Embedding of `ProxyView._handle_request` (`views.py` lines 48-81):
a falsy URL short-circuits to 404; a transport failure of the upstream
call raises `aiohttp.ClientError` to the caller; a caught mid-stream read
failure is logged and the streamed response returned truncated; an
uncaught client-write failure propagates as `connError`. -/
def handle_request (relUrl : Str) (url : Option Str) (up : UpstreamBehavior)
    (accept : Option Nat) : HandleOut :=
  if !optStrTruthy url then
    { outcome := .response (.plain HTTP_NOT_FOUND []), upstreamCalls := 0, logs := [] }
  else
    match up with
    | .fail => { outcome := .clientError, upstreamCalls := 1, logs := [] }
    | .respond r =>
      let headers := response_header r.headers
      match copyChunks r.body accept with
      | (written, .exhausted) =>
        { outcome := .response (.streamed r.status headers r.content_type written false),
          upstreamCalls := 1, logs := [] }
      | (written, .readError) =>
        { outcome := .response (.streamed r.status headers r.content_type written true),
          upstreamCalls := 1, logs := [⟨.streamError, relUrl⟩] }
      | (written, .writeError) =>
        { outcome := .connError written, upstreamCalls := 1, logs := [] }

/-- Result of `ProxyView.get`: its outcome, the number of upstream HTTP
calls made, and the debug log records emitted. -/
structure GetOut where
  outcome : GetOutcome
  upstreamCalls : Nat
  logs : List LogEntry
deriving DecidableEq

/-- Body text given to `HTTPBadGateway()` by `aiohttp.web_exceptions`:
an `HTTPException` with no explicit body renders as
`"{status}: {reason}"`, here status `502`, reason `"Bad Gateway"`. -/
def badGatewayBody : Str := chars "502: Bad Gateway"

/-- Embedding of `ProxyView.get` (`views.py` lines 34-46): an
`aiohttp.ClientError` escaping `_handle_request` is logged at debug level
with the request's `rel_url` and converted into `HTTPBadGateway` (502);
any other exception (`ConnectionResetError` from a client write) is not
caught and propagates to the framework. -/
def get_handler (relUrl : Str) (url : Option Str) (up : UpstreamBehavior)
    (accept : Option Nat) : GetOut :=
  let h := handle_request relUrl url up accept
  match h.outcome with
  | .response resp =>
    { outcome := .response resp, upstreamCalls := h.upstreamCalls, logs := h.logs }
  | .clientError =>
    { outcome := .response (.plain 502 badGatewayBody),
      upstreamCalls := h.upstreamCalls,
      logs := h.logs ++ [⟨.reverseProxyError, relUrl⟩] }
  | .connError written =>
    { outcome := .uncaught written, upstreamCalls := h.upstreamCalls, logs := h.logs }

/-! Support lemmas for the claims. -/

theorem init_header_eq (req : InboundRequest) :
    init_header req =
      dictSet (dictSet (dictSet
        (dictOfItems (req.headers.filter fun p => decide (p.1 ∉ requestFilterHeaders)))
        X_FORWARDED_FOR (forwardForValue req))
        X_FORWARDED_HOST (forwardHostValue req))
        X_FORWARDED_PROTO (forwardProtoValue req) := rfl

theorem copyChunks_read_error (pre : List Str) (rest : List StreamEvent)
    (accept : Option Nat) (hacc : ∀ k, accept = some k → pre.length ≤ k) :
    copyChunks (pre.map StreamEvent.chunk ++ StreamEvent.readError :: rest) accept
      = (pre, .readError) := by
  induction pre generalizing accept with
  | nil => cases accept <;> simp [copyChunks]
  | cons c cs ih =>
    match accept with
    | none => simp [copyChunks, ih none (by simp)]
    | some 0 => exact absurd (hacc 0 rfl) (by simp)
    | some (k + 1) =>
      have hk : ∀ m, some k = some m → cs.length ≤ m := by
        intro m hm
        have hkm : k = m := Option.some.inj hm
        have := hacc (k + 1) rfl
        simp at this
        exact hkm ▸ this
      simp [copyChunks, ih (some k) hk]

theorem copyChunks_write_error (pre : List Str) (d : Str)
    (rest : List StreamEvent) :
    copyChunks (pre.map StreamEvent.chunk ++ StreamEvent.chunk d :: rest)
      (some pre.length) = (pre, .writeError) := by
  induction pre with
  | nil => simp [copyChunks]
  | cons c cs ih => simp [copyChunks, ih]

theorem alook_some_mem (d : List (Str × Str)) (k v : Str)
    (h : alook d k = some v) : ∃ q ∈ d, q.1 = k := by
  by_contra hc
  push_neg at hc
  rw [(alook_eq_none_iff d k).mpr hc] at h
  simp at h

theorem alook_init_header_of_not_forwarding (req : InboundRequest) (name : Str)
    (h1 : name ≠ X_FORWARDED_FOR) (h2 : name ≠ X_FORWARDED_HOST)
    (h3 : name ≠ X_FORWARDED_PROTO) :
    alook (init_header req) name =
      lastLook (req.headers.filter fun p => decide (p.1 ∉ requestFilterHeaders))
        name := by
  rw [init_header_eq, alook_dictSet_ne _ _ _ _ (Ne.symm h3),
      alook_dictSet_ne _ _ _ _ (Ne.symm h2), alook_dictSet_ne _ _ _ _ (Ne.symm h1),
      alook_dictOfItems]

theorem not_mem_forwarding_split (name : Str) (h : name ∉ forwardingHeaders) :
    name ≠ X_FORWARDED_FOR ∧ name ≠ X_FORWARDED_HOST ∧ name ≠ X_FORWARDED_PROTO := by
  simp only [forwardingHeaders, List.mem_cons, List.not_mem_nil, or_false,
    not_or] at h
  exact h

theorem alook_init_header_passthrough (req : InboundRequest) (name : Str)
    (hm : name ∉ requestFilterHeaders) (hf : name ∉ forwardingHeaders) :
    alook (init_header req) name = lastLook req.headers name := by
  obtain ⟨h1, h2, h3⟩ := not_mem_forwarding_split name hf
  rw [alook_init_header_of_not_forwarding req name h1 h2 h3]
  exact lastLook_filter _ _ _ fun p _ hpn => by
    simp only [decide_eq_true_eq]
    rw [hpn]; exact hm

theorem alook_init_header_none_of_filtered (req : InboundRequest) (name : Str)
    (hm : name ∈ requestFilterHeaders) :
    alook (init_header req) name = none := by
  have hf : name ∉ forwardingHeaders := by
    simp only [requestFilterHeaders, List.mem_cons, List.not_mem_nil,
      or_false] at hm
    rcases hm with rfl | rfl | rfl | rfl | rfl | rfl <;> decide
  obtain ⟨h1, h2, h3⟩ := not_mem_forwarding_split name hf
  rw [alook_init_header_of_not_forwarding req name h1 h2 h3,
      lastLook_eq_none_iff]
  intro q hq he
  have hq2 := (List.mem_filter.mp hq).2
  simp only [decide_eq_true_eq] at hq2
  rw [he] at hq2
  exact hq2 hm

theorem alook_init_header_fwd_for (req : InboundRequest) :
    alook (init_header req) X_FORWARDED_FOR = some (forwardForValue req) := by
  rw [init_header_eq, alook_dictSet_ne _ _ _ _ (by decide),
      alook_dictSet_ne _ _ _ _ (by decide), alook_dictSet_self]

theorem alook_init_header_fwd_host (req : InboundRequest) :
    alook (init_header req) X_FORWARDED_HOST = some (forwardHostValue req) := by
  rw [init_header_eq, alook_dictSet_ne _ _ _ _ (by decide), alook_dictSet_self]

theorem alook_init_header_fwd_proto (req : InboundRequest) :
    alook (init_header req) X_FORWARDED_PROTO = some (forwardProtoValue req) := by
  rw [init_header_eq, alook_dictSet_self]

theorem keysDistinct_init_header (req : InboundRequest) :
    keysDistinct (init_header req) := by
  rw [init_header_eq]
  exact keysDistinct_dictSet _ _ _ (keysDistinct_dictSet _ _ _
    (keysDistinct_dictSet _ _ _ (keysDistinct_dictOfItems _)))

theorem alook_response_header_passthrough (headers : List (Str × Str)) (name : Str)
    (hm : name ∉ responseFilterHeaders) :
    alook (response_header headers) name = lastLook headers name := by
  show alook (dictOfItems _) name = _
  rw [alook_dictOfItems]
  exact lastLook_filter _ _ _ fun p _ hpn => by
    simp only [decide_eq_true_eq]
    rw [hpn]; exact hm

theorem alook_response_header_none (headers : List (Str × Str)) (name : Str)
    (hm : name ∈ responseFilterHeaders) :
    alook (response_header headers) name = none := by
  show alook (dictOfItems _) name = none
  rw [alook_dictOfItems, lastLook_eq_none_iff]
  intro q hq he
  have hq2 := (List.mem_filter.mp hq).2
  simp only [decide_eq_true_eq] at hq2
  rw [he] at hq2
  exact hq2 hm

theorem splitChar_cons_sep (sep : Char) (l : Str) :
    splitChar sep (sep :: l) = [] :: splitChar sep l := by
  rcases hr : splitChar sep l with _ | ⟨r, rs⟩
  · exact absurd hr (splitChar_ne_nil sep l)
  · simp [splitChar, hr]

theorem resolveSegs_no_dots (l : List Str) (acc : List Str)
    (h : ∀ s ∈ l, s ≠ chars "." ∧ s ≠ chars "..") :
    resolveSegs acc l = acc ++ l := by
  induction l generalizing acc with
  | nil => simp [resolveSegs]
  | cons s rest ih =>
    obtain ⟨h1, h2⟩ := h s (List.mem_cons_self _ _)
    have hrest : ∀ t ∈ rest, t ≠ chars "." ∧ t ≠ chars ".." :=
      fun t ht => h t (List.mem_cons_of_mem _ ht)
    simp only [resolveSegs, if_neg h2, if_neg h1]
    rw [ih (acc ++ [s]) hrest]
    simp

theorem splitScheme_http (ds b : Str) :
    splitScheme ds (chars "http" ++ ':' :: b) = (chars "http", b) := by
  rw [splitScheme, findSplit_append_cons ':' (chars "http") b (by decide)]
  show (if chars "http" ≠ [] ∧ ((chars "http").headD ' ').isAlpha = true ∧
      (chars "http").all isSchemeChar = true
    then ((chars "http").map Char.toLower, b)
    else (ds, chars "http" ++ ':' :: b)) = (chars "http", b)
  rw [if_pos (by refine ⟨by decide, by decide, by decide⟩)]
  rw [show (chars "http").map Char.toLower = chars "http" from by decide]

theorem splitScheme_head_slash (ds l : Str) :
    splitScheme ds ('/' :: l) = (ds, '/' :: l) := by
  rw [splitScheme]
  rcases hf : findSplit ':' ('/' :: l) with _ | ⟨before, after⟩
  · rfl
  · obtain ⟨heq, hnm⟩ := findSplit_eq_some ':' _ before after hf
    cases before with
    | nil =>
      have h0 : ('/' : Char) = ':' := by
        simpa using congrArg (fun t => t.headD ' ') heq
      exact absurd h0 (by decide)
    | cons c cs =>
      have hc : c = '/' := by
        simp only [List.cons_append, List.cons.injEq] at heq
        exact heq.1.symm
      show (if c :: cs ≠ [] ∧ ((c :: cs).headD ' ').isAlpha = true ∧
          (c :: cs).all isSchemeChar = true
        then ((c :: cs).map Char.toLower, after)
        else (ds, '/' :: l)) = (ds, '/' :: l)
      rw [if_neg]
      rintro ⟨h1, h2, h3⟩
      rw [List.headD_cons, hc] at h2
      exact absurd h2 (by decide)

theorem splitNetloc_slashes (r : Str) :
    splitNetloc ('/' :: '/' :: r) =
      (r.takeWhile (fun c => !isNetlocEnd c),
       r.dropWhile (fun c => !isNetlocEnd c)) := by
  rw [splitNetloc,
    if_pos (show List.take 2 ('/' :: '/' :: r) = chars "//" from rfl)]
  rfl

theorem splitNetloc_not_slashes (hd2 : Char) (tl : Str) (hh1 : hd2 ≠ '/') :
    splitNetloc ('/' :: hd2 :: tl) = ([], '/' :: hd2 :: tl) := by
  rw [splitNetloc, if_neg]
  simp only [List.take, chars, List.cons.injEq]
  rintro ⟨h1, h2, h3⟩
  exact hh1 h2

theorem splitFragment_none (l : Str) (h : '#' ∉ l) :
    splitFragment l = (l, []) := by
  rw [splitFragment, findSplit_eq_none _ _ h]

theorem splitQuery_none (l : Str) (h : '?' ∉ l) :
    splitQuery l = (l, []) := by
  rw [splitQuery, findSplit_eq_none _ _ h]

theorem urlsplit_parts (ds url : Str) :
    urlsplit ds url =
      ⟨(splitScheme (stripUnsafe ds) (stripUnsafe url)).1,
       (splitNetloc (splitScheme (stripUnsafe ds) (stripUnsafe url)).2).1,
       (splitQuery (splitFragment
         (splitNetloc (splitScheme (stripUnsafe ds) (stripUnsafe url)).2).2).1).1,
       (splitQuery (splitFragment
         (splitNetloc (splitScheme (stripUnsafe ds) (stripUnsafe url)).2).2).1).2,
       (splitFragment
         (splitNetloc (splitScheme (stripUnsafe ds) (stripUnsafe url)).2).2).2⟩ := rfl

theorem stripUnsafe_eq_self (l : Str) (h : ∀ c ∈ l, isUnsafeUrlChar c = false) :
    stripUnsafe l = l := by
  induction l with
  | nil => rfl
  | cons c cs ih =>
    have hc := h c (List.mem_cons_self _ _)
    have hcs := ih fun x hx => h x (List.mem_cons_of_mem _ hx)
    simp [stripUnsafe, List.filter_cons, hc] at hcs ⊢
    exact hcs

/-- A netloc as the proxy's configuration uses it: nonempty, with no
path, query, fragment or unsafe characters. -/
def netlocPlain (n : Str) : Prop :=
  n ≠ [] ∧ ∀ c ∈ n, c ≠ '/' ∧ c ≠ '?' ∧ c ≠ '#' ∧ isUnsafeUrlChar c = false

theorem stripUnsafe_http_base (n : Str) (hn : netlocPlain n) :
    stripUnsafe (chars "http://" ++ n) = chars "http://" ++ n := by
  rw [stripUnsafe, List.filter_append,
      show List.filter (fun c => !isUnsafeUrlChar c) (chars "http://")
        = chars "http://" from by decide]
  rw [show List.filter (fun c => !isUnsafeUrlChar c) n = stripUnsafe n from rfl,
      stripUnsafe_eq_self n fun c hc => (hn.2 c hc).2.2.2]

theorem urlsplit_http_base (n : Str) (hn : netlocPlain n) :
    urlsplit [] (chars "http://" ++ n) = ⟨chars "http", n, [], [], []⟩ := by
  have hnl : ∀ c ∈ n, (!isNetlocEnd c) = true := by
    intro c hc
    obtain ⟨h1, h2, h3, h4⟩ := hn.2 c hc
    simp [isNetlocEnd, h1, h2, h3]
  have htw : n.takeWhile (fun c => !isNetlocEnd c) = n := by
    have := takeWhile_append_all (fun c => !isNetlocEnd c) n [] hnl
    simpa using this
  have hdw : n.dropWhile (fun c => !isNetlocEnd c) = [] := by
    have := dropWhile_append_all (fun c => !isNetlocEnd c) n [] hnl
    simpa using this
  have he : chars "http://" ++ n = chars "http" ++ ':' :: ('/' :: '/' :: n) := rfl
  rw [urlsplit_parts, stripUnsafe_http_base n hn,
      show stripUnsafe [] = [] from rfl, he, splitScheme_http,
      splitNetloc_slashes, htw, hdw,
      splitFragment_none [] (by decide), splitQuery_none [] (by decide)]

theorem stripUnsafe_http_base_slash (n : Str) (hn : netlocPlain n) :
    stripUnsafe (chars "http://" ++ n ++ chars "/")
      = chars "http://" ++ n ++ chars "/" := by
  rw [stripUnsafe, List.filter_append, List.filter_append,
      show List.filter (fun c => !isUnsafeUrlChar c) (chars "http://")
        = chars "http://" from by decide,
      show List.filter (fun c => !isUnsafeUrlChar c) (chars "/")
        = chars "/" from by decide]
  rw [show List.filter (fun c => !isUnsafeUrlChar c) n = stripUnsafe n from rfl,
      stripUnsafe_eq_self n fun c hc => (hn.2 c hc).2.2.2]

theorem urlsplit_http_base_slash (n : Str) (hn : netlocPlain n) :
    urlsplit [] (chars "http://" ++ n ++ chars "/") =
      ⟨chars "http", n, chars "/", [], []⟩ := by
  have hnl : ∀ c ∈ n, (!isNetlocEnd c) = true := by
    intro c hc
    obtain ⟨h1, h2, h3, h4⟩ := hn.2 c hc
    simp [isNetlocEnd, h1, h2, h3]
  have htw : (n ++ chars "/").takeWhile (fun c => !isNetlocEnd c) = n := by
    have := takeWhile_append_all (fun c => !isNetlocEnd c) n (chars "/") hnl
    simpa [List.takeWhile, isNetlocEnd] using this
  have hdw : (n ++ chars "/").dropWhile (fun c => !isNetlocEnd c) = chars "/" := by
    have := dropWhile_append_all (fun c => !isNetlocEnd c) n (chars "/") hnl
    simpa [List.dropWhile, isNetlocEnd] using this
  have he : chars "http://" ++ n ++ chars "/"
      = chars "http" ++ ':' :: ('/' :: '/' :: (n ++ chars "/")) := by
    rw [List.append_assoc]
    rfl
  rw [urlsplit_parts, stripUnsafe_http_base_slash n hn,
      show stripUnsafe [] = [] from rfl, he, splitScheme_http,
      splitNetloc_slashes, htw, hdw,
      splitFragment_none (chars "/") (by decide),
      splitQuery_none (chars "/") (by decide)]

theorem urlsplit_abs_rel (ds : Str) (c0 : Char) (rest0 : Str)
    (hsds : stripUnsafe ds = ds)
    (hsu : stripUnsafe ('/' :: c0 :: rest0) = '/' :: c0 :: rest0)
    (hh1 : c0 ≠ '/')
    (hnq : '?' ∉ '/' :: c0 :: rest0)
    (hnf : '#' ∉ '/' :: c0 :: rest0) :
    urlsplit ds ('/' :: c0 :: rest0) =
      ⟨ds, [], '/' :: c0 :: rest0, [], []⟩ := by
  rw [urlsplit_parts, hsds, hsu]
  rw [show ('/' :: c0 :: rest0) = '/' :: (c0 :: rest0) from rfl]
  rw [splitScheme_head_slash]
  rw [show (ds, '/' :: (c0 :: rest0)).2 = '/' :: c0 :: rest0 from rfl]
  rw [splitNetloc_not_slashes c0 rest0 hh1]
  rw [show (([] : Str), '/' :: c0 :: rest0).2 = '/' :: c0 :: rest0 from rfl]
  rw [splitFragment_none _ hnf, splitQuery_none _ hnq]

theorem urlparse_http_base (n : Str) (hn : netlocPlain n) :
    urlparse [] (chars "http://" ++ n) = ⟨chars "http", n, [], [], [], []⟩ := by
  rw [urlparse, urlsplit_http_base n hn]
  rw [if_neg (by rintro ⟨_, hm⟩; simp at hm)]

theorem urlparse_http_base_slash (n : Str) (hn : netlocPlain n) :
    urlparse [] (chars "http://" ++ n ++ chars "/")
      = ⟨chars "http", n, chars "/", [], [], []⟩ := by
  rw [urlparse, urlsplit_http_base_slash n hn]
  rw [if_neg fun h => absurd (show (';' : Char) ∈ chars "/" from h.2) (by decide)]

theorem urlparse_http_abs_rel (c0 : Char) (rest0 : Str)
    (hsu : stripUnsafe ('/' :: c0 :: rest0) = '/' :: c0 :: rest0)
    (hh1 : c0 ≠ '/')
    (hnq : '?' ∉ '/' :: c0 :: rest0)
    (hnf : '#' ∉ '/' :: c0 :: rest0)
    (hns : ';' ∉ '/' :: c0 :: rest0) :
    urlparse (chars "http") ('/' :: c0 :: rest0) =
      ⟨chars "http", [], '/' :: c0 :: rest0, [], [], []⟩ := by
  rw [urlparse, urlsplit_abs_rel (chars "http") c0 rest0 (by decide) hsu hh1 hnq hnf]
  rw [if_neg (by rintro ⟨_, hm⟩; exact hns hm)]

theorem urlunsplit_http (n p : Str) (hn : n ≠ []) (hp : p.take 1 = chars "/") :
    urlunsplit ⟨chars "http", n, p, [], []⟩ = chars "http://" ++ n ++ p := by
  simp only [urlunsplit]
  rw [if_pos (Or.inl hn),
      if_neg (show ¬(p ≠ [] ∧ List.take 1 p ≠ chars "/") from fun h => h.2 hp)]
  rfl

theorem urlunparse_no_params (sch n p q f : Str) :
    urlunparse ⟨sch, n, p, [], q, f⟩ = urlunsplit ⟨sch, n, p, q, f⟩ := by
  rw [urlunparse, if_neg (by simp)]

theorem urljoin_eq_joinParts (base url : Str) (hb : base ≠ []) (hu : url ≠ []) :
    urljoin base url =
      joinParts (urlparse [] base) (urlparse (urlparse [] base).scheme url) url := by
  rw [urljoin, if_neg hb, if_neg hu]

theorem joinParts_http_abs (nloc bpath bparams rest' : Str) (hn : nloc ≠ [])
    (hseg : ∀ s ∈ splitChar '/' rest', s ≠ chars "." ∧ s ≠ chars "..") :
    joinParts ⟨chars "http", nloc, bpath, bparams, [], []⟩
        ⟨chars "http", [], '/' :: rest', [], [], []⟩ ('/' :: rest')
      = chars "http://" ++ nloc ++ ('/' :: rest') := by
  have hurlne : ('/' :: rest' : Str) ≠ [] := List.cons_ne_nil _ _
  have hsegs : splitChar '/' ('/' :: rest') = [] :: splitChar '/' rest' :=
    splitChar_cons_sep '/' rest'
  have hsplitne := splitChar_ne_nil '/' rest'
  have hlast : ([] :: splitChar '/' rest').getLastD [] ∈ splitChar '/' rest' := by
    have h1 : ([] :: splitChar '/' rest').getLastD []
        = (splitChar '/' rest').getLastD [] := by
      rcases hr : splitChar '/' rest' with _ | ⟨r, rs⟩
      · exact absurd hr hsplitne
      · rfl
    rw [h1]
    exact getLastD_mem _ _ hsplitne
  have hnodots : ∀ s ∈ [] :: splitChar '/' rest',
      s ≠ chars "." ∧ s ≠ chars ".." := by
    intro s hs
    rcases List.mem_cons.mp hs with rfl | hs2
    · exact ⟨by decide, by decide⟩
    · exact hseg s hs2
  have hjoin : joinChar '/' ([] :: splitChar '/' rest') = '/' :: rest' := by
    rcases hr : splitChar '/' rest' with _ | ⟨r, rs⟩
    · exact absurd hr hsplitne
    · have hj : joinChar '/' (splitChar '/' rest') = rest' :=
        joinChar_splitChar '/' rest'
      rw [hr] at hj
      show [] ++ '/' :: joinChar '/' (r :: rs) = _
      rw [hj]
      rfl
  have hcond : ¬(([] :: splitChar '/' rest').getLastD [] = chars "." ∨
      ([] :: splitChar '/' rest').getLastD [] = chars "..") := by
    rintro (h | h)
    · exact (hseg _ hlast).1 h
    · exact (hseg _ hlast).2 h
  simp only [joinParts]
  rw [if_neg (show ¬(chars "http" ≠ chars "http" ∨ chars "http" ∉ uses_relative)
    from by decide)]
  rw [if_neg (show ¬(chars "http" ∈ uses_netloc ∧ ([] : Str) ≠ []) from by decide)]
  rw [if_pos (show chars "http" ∈ uses_netloc from by decide)]
  rw [if_neg (show ¬(('/' :: rest' : Str) = [] ∧ True) from fun h => hurlne h.1)]
  rw [if_pos (show ('/' :: rest' : Str).take 1 = chars "/" from rfl)]
  rw [hsegs]
  rw [resolveSegs_no_dots _ _ hnodots]
  rw [if_neg hcond, List.nil_append]
  rw [hjoin]
  rw [if_neg (show ¬(('/' :: rest' : Str) = []) from hurlne)]
  rw [urlunparse_no_params]
  exact urlunsplit_http nloc ('/' :: rest') hn rfl

/-! The claims. -/

/-- C2: for every request whose route resolution yields the no-mapping
signal (the URL builder returned a falsy value, `None` or `""`), the
handler returns a response with status 404 (`HTTP_NOT_FOUND`) and no
upstream HTTP call is made at all. -/
theorem no_mapping_yields_404_no_upstream (relUrl : Str) (url : Option Str)
    (up : UpstreamBehavior) (accept : Option Nat) (h : optStrTruthy url = false) :
    get_handler relUrl url up accept =
      { outcome := .response (.plain HTTP_NOT_FOUND []),
        upstreamCalls := 0, logs := [] } := by
  simp [get_handler, handle_request, h]

theorem no_mapping_yields_404_no_upstream_witness :
    get_handler (chars "/unmatched") none .fail none =
      { outcome := .response (.plain 404 []), upstreamCalls := 0, logs := [] } ∧
    get_handler (chars "/unmatched") (some []) .fail none =
      { outcome := .response (.plain 404 []), upstreamCalls := 0, logs := [] } :=
  ⟨no_mapping_yields_404_no_upstream (chars "/unmatched") none .fail none (by decide),
   no_mapping_yields_404_no_upstream (chars "/unmatched") (some []) .fail none (by decide)⟩

/-- C4 counterexample: the claim says every transport-level failure during
the chunk-copy loop is caught by the `except (aiohttp.ClientError,
aiohttp.ClientPayloadError)` clause with no exception escaping, but a
failure of the client-side write — the client disconnecting mid-stream —
raises builtin `ConnectionResetError`, which is neither of the two caught
types: here the client's transport accepts two writes and then closes,
the loop's third `response.write` raises, nothing is logged, and the
exception escapes `_handle_request` and `get` (outcome `uncaught`). -/
theorem stream_write_failure_escapes_cex :
    get_handler (chars "/api/frigate/clips/a.mp4") (some (chars "http://h/clips/a.mp4"))
      (.respond ⟨200, [(chars "Content-Length", chars "20480")], chars "video/mp4",
        [.chunk (chars "c1"), .chunk (chars "c2"), .chunk (chars "c3"),
         .chunk (chars "c4"), .chunk (chars "c5")]⟩) (some 2) =
      { outcome := .uncaught [chars "c1", chars "c2"],
        upstreamCalls := 1, logs := [] } := by decide

/-- C4 amended: (1) if the upstream read raises one of the caught kinds
(`aiohttp.ClientError` / `ClientPayloadError`) while copying body chunks
and the client keeps accepting writes, the handler logs one debug record
with the request path and returns the streamed response normally: chunks
written before the failure stay, none after, and no exception escapes;
(2) if instead a client-side write fails (`ConnectionResetError`), the
exception is not among the caught kinds and escapes both `_handle_request`
and `get` uncaught, with no log record. -/
theorem stream_error_handling_amended (relUrl : Str) (url : Option Str)
    (r : UpstreamResponse) (pre : List Str) (rest : List StreamEvent)
    (accept : Option Nat) (d : Str)
    (hu : optStrTruthy url = true) :
    (r.body = pre.map StreamEvent.chunk ++ StreamEvent.readError :: rest →
      (∀ k, accept = some k → pre.length ≤ k) →
      get_handler relUrl url (.respond r) accept =
        { outcome := .response (.streamed r.status (response_header r.headers)
            r.content_type pre true),
          upstreamCalls := 1,
          logs := [⟨.streamError, relUrl⟩] }) ∧
    (r.body = pre.map StreamEvent.chunk ++ StreamEvent.chunk d :: rest →
      get_handler relUrl url (.respond r) (some pre.length) =
        { outcome := .uncaught pre, upstreamCalls := 1, logs := [] }) := by
  constructor
  · intro hb hacc
    simp [get_handler, handle_request, hu, hb,
      copyChunks_read_error pre rest accept hacc]
  · intro hb
    simp [get_handler, handle_request, hu, hb, copyChunks_write_error]

theorem stream_error_handling_amended_witness :
    optStrTruthy (some (chars "http://h/clips/a.mp4")) = true ∧
    get_handler (chars "/api/frigate/clips/a.mp4") (some (chars "http://h/clips/a.mp4"))
      (.respond ⟨200, [(chars "Content-Length", chars "20480")], chars "video/mp4",
        [.chunk (chars "c1"), .chunk (chars "c2"), .readError,
         .chunk (chars "c3")]⟩) none =
      { outcome := .response (.streamed 200 [(chars "Content-Length", chars "20480")]
          (chars "video/mp4") [chars "c1", chars "c2"] true),
        upstreamCalls := 1,
        logs := [⟨.streamError, chars "/api/frigate/clips/a.mp4"⟩] } ∧
    get_handler (chars "/api/frigate/clips/a.mp4") (some (chars "http://h/clips/a.mp4"))
      (.respond ⟨200, [(chars "Content-Length", chars "20480")], chars "video/mp4",
        [.chunk (chars "c1"), .chunk (chars "c2"), .chunk (chars "c3")]⟩) (some 2) =
      { outcome := .uncaught [chars "c1", chars "c2"],
        upstreamCalls := 1, logs := [] } := by
  refine ⟨by decide, ?_, ?_⟩
  · exact (stream_error_handling_amended (chars "/api/frigate/clips/a.mp4")
      (some (chars "http://h/clips/a.mp4"))
      ⟨200, [(chars "Content-Length", chars "20480")], chars "video/mp4",
        [.chunk (chars "c1"), .chunk (chars "c2"), .readError, .chunk (chars "c3")]⟩
      [chars "c1", chars "c2"] [.chunk (chars "c3")] none (chars "z")
      (by decide)).1 (by decide) (by intro k hk; cases hk)
  · exact (stream_error_handling_amended (chars "/api/frigate/clips/a.mp4")
      (some (chars "http://h/clips/a.mp4"))
      ⟨200, [(chars "Content-Length", chars "20480")], chars "video/mp4",
        [.chunk (chars "c1"), .chunk (chars "c2"), .chunk (chars "c3")]⟩
      [chars "c1", chars "c2"] [] (some 2) (chars "c3")
      (by decide)).2 (by decide)

/-- C5 counterexample: on a transport failure of the upstream call the
client receives status 502, but the body is aiohttp's default error text
`"502: Bad Gateway"`, not empty, so the claim's empty-body part fails. -/
theorem bad_gateway_body_cex :
    (get_handler (chars "/api/frigate/clips/x") (some (chars "http://h/clips/x"))
        .fail none).outcome = .response (.plain 502 badGatewayBody) ∧
    badGatewayBody ≠ [] := by decide

/-- C5 amended: if the upstream call itself fails at the transport level,
the handler produces a 502 Bad Gateway response whose body is the
library's default error text `"502: Bad Gateway"` (no upstream detail),
logs one debug record carrying the request path, and makes exactly one
upstream call (no retry). -/
theorem upstream_failure_bad_gateway (relUrl : Str) (url : Option Str)
    (accept : Option Nat) (hu : optStrTruthy url = true) :
    get_handler relUrl url .fail accept =
      { outcome := .response (.plain 502 badGatewayBody), upstreamCalls := 1,
        logs := [⟨.reverseProxyError, relUrl⟩] } := by
  simp [get_handler, handle_request, hu]

theorem upstream_failure_bad_gateway_witness :
    get_handler (chars "/api/frigate/clips/x") (some (chars "http://h/clips/x"))
        .fail none =
      { outcome := .response (.plain 502 (chars "502: Bad Gateway")),
        upstreamCalls := 1,
        logs := [⟨.reverseProxyError, chars "/api/frigate/clips/x"⟩] } := by
  have h := upstream_failure_bad_gateway (chars "/api/frigate/clips/x")
    (some (chars "http://h/clips/x")) none (by decide)
  rw [h]
  decide

/-- C1: `NotificationsProxyView._create_url` resolves `thumbnail.jpg` to
`base/api/events/{event_id}/thumbnail.jpg`, `snapshot.jpg` to
`base/api/events/{event_id}/snapshot.jpg`, a path ending in `clip.mp4` to
`base/clips/{camera}-{event_id}.mp4` where `camera` is the part of the
path before its first `/`, and any other path to the no-mapping signal
`None`.  Joining with the base is `urllib.parse.urljoin`. -/
theorem notifications_create_url_resolution (host event_id path : Str) :
    (path = chars "thumbnail.jpg" →
      NotificationsProxyView_create_url host event_id path =
        some (urljoin host
          (chars "/api/events/" ++ event_id ++ chars "/thumbnail.jpg"))) ∧
    (path = chars "snapshot.jpg" →
      NotificationsProxyView_create_url host event_id path =
        some (urljoin host
          (chars "/api/events/" ++ event_id ++ chars "/snapshot.jpg"))) ∧
    ((∃ t, path = t ++ chars "clip.mp4") →
      NotificationsProxyView_create_url host event_id path =
        some (urljoin host (chars "/clips/" ++
          path.takeWhile (fun c => !decide (c = '/')) ++
          chars "-" ++ event_id ++ chars ".mp4"))) ∧
    (path ≠ chars "thumbnail.jpg" → path ≠ chars "snapshot.jpg" →
      (¬ ∃ t, path = t ++ chars "clip.mp4") →
      NotificationsProxyView_create_url host event_id path = none) := by
  refine ⟨?_, ?_, ?_, ?_⟩
  · rintro rfl
    rfl
  · rintro rfl
    unfold NotificationsProxyView_create_url
    rw [if_neg (by decide), if_pos rfl]
  · intro hex
    have hend : endsWithB path (chars "clip.mp4") = true := (endsWithB_iff _ _).mpr hex
    have h1 : path ≠ chars "thumbnail.jpg" := by
      intro h; rw [h] at hend; exact absurd hend (by decide)
    have h2 : path ≠ chars "snapshot.jpg" := by
      intro h; rw [h] at hend; exact absurd hend (by decide)
    unfold NotificationsProxyView_create_url
    rw [if_neg h1, if_neg h2, if_pos hend, splitChar_head_takeWhile]
  · intro h1 h2 h3
    have hend : ¬ endsWithB path (chars "clip.mp4") = true :=
      fun hb => h3 ((endsWithB_iff _ _).mp hb)
    unfold NotificationsProxyView_create_url
    rw [if_neg h1, if_neg h2, if_neg hend]

theorem notifications_create_url_resolution_witness :
    NotificationsProxyView_create_url (chars "http://base") (chars "ev1")
        (chars "cam1/clip.mp4") = some (chars "http://base/clips/cam1-ev1.mp4") ∧
    NotificationsProxyView_create_url (chars "http://base") (chars "ev1")
        (chars "thumbnail.jpg") =
      some (chars "http://base/api/events/ev1/thumbnail.jpg") ∧
    NotificationsProxyView_create_url (chars "http://base") (chars "ev1")
        (chars "front.jpg") = none := by
  refine ⟨?_, ?_, ?_⟩
  · have h := (notifications_create_url_resolution (chars "http://base")
      (chars "ev1") (chars "cam1/clip.mp4")).2.2.1 ⟨chars "cam1/", by decide⟩
    rw [h]; decide
  · have h := (notifications_create_url_resolution (chars "http://base")
      (chars "ev1") (chars "thumbnail.jpg")).1 rfl
    rw [h]; decide
  · exact (notifications_create_url_resolution (chars "http://base")
      (chars "ev1") (chars "front.jpg")).2.2.2 (by decide) (by decide)
      (fun hex => absurd ((endsWithB_iff _ _).mpr hex) (by decide))

/-- C10: a Notifications path that ends with `clip.mp4` and contains no
`/` still resolves: `path.split("/")[0]` is the whole path, so the camera
segment is the entire path, and in particular `clip.mp4` with event id `E`
resolves to `base/clips/clip.mp4-E.mp4` rather than the no-mapping
signal. -/
theorem notifications_clip_no_slash (host event_id path : Str)
    (hex : ∃ t, path = t ++ chars "clip.mp4") (hns : '/' ∉ path) :
    NotificationsProxyView_create_url host event_id path =
      some (urljoin host
        (chars "/clips/" ++ path ++ chars "-" ++ event_id ++ chars ".mp4")) ∧
    NotificationsProxyView_create_url host event_id path ≠ none := by
  have hend : endsWithB path (chars "clip.mp4") = true := (endsWithB_iff _ _).mpr hex
  have h1 : path ≠ chars "thumbnail.jpg" := by
    intro h; rw [h] at hend; exact absurd hend (by decide)
  have h2 : path ≠ chars "snapshot.jpg" := by
    intro h; rw [h] at hend; exact absurd hend (by decide)
  have hsplit : (splitChar '/' path).headD [] = path := by
    rw [splitChar_no_sep '/' path hns]; rfl
  constructor
  · unfold NotificationsProxyView_create_url
    rw [if_neg h1, if_neg h2, if_pos hend, hsplit]
  · unfold NotificationsProxyView_create_url
    rw [if_neg h1, if_neg h2, if_pos hend]
    simp

theorem notifications_clip_no_slash_witness :
    NotificationsProxyView_create_url (chars "http://h") (chars "evt")
        (chars "clip.mp4") = some (chars "http://h/clips/clip.mp4-evt.mp4") ∧
    NotificationsProxyView_create_url (chars "http://h") (chars "evt")
        (chars "clip.mp4") ≠ none := by
  have h := notifications_clip_no_slash (chars "http://h") (chars "evt")
    (chars "clip.mp4") ⟨[], by decide⟩ (by decide)
  refine ⟨?_, h.2⟩
  rw [h.1]; decide

/-- C3 counterexample: an inbound request carrying `X-Forwarded-For` with
the empty value and peer `203.0.113.5` is forwarded with value
`203.0.113.5` alone, not `", 203.0.113.5"` as the claim's `v, p` rule
demands, because `if forward_for:` treats the empty string as absent. -/
theorem forwarded_for_empty_value_cex :
    alook (init_header ⟨[(X_FORWARDED_FOR, [])], chars "203.0.113.5",
        chars "hass", chars "http"⟩) X_FORWARDED_FOR
      = some (chars "203.0.113.5") ∧
    (chars "203.0.113.5" : Str) ≠ [] ++ chars ", " ++ chars "203.0.113.5" := by
  decide

/-- C3 amended: the forwarded header set contains exactly one
`X-Forwarded-For` entry; if the inbound request carries a **non-empty**
first `X-Forwarded-For` value `v` and the peer IP literal is `p`, the
forwarded value is `v, p` (comma-and-space); if the header is absent or
its value is empty, the forwarded value is `p` alone. -/
theorem forwarded_for_header_amended (req : InboundRequest) :
    keyCount (init_header req) X_FORWARDED_FOR = 1 ∧
    (∀ v, alook req.headers X_FORWARDED_FOR = some v → v ≠ [] →
      alook (init_header req) X_FORWARDED_FOR =
        some (v ++ chars ", " ++ req.peer)) ∧
    ((alook req.headers X_FORWARDED_FOR = none ∨
      alook req.headers X_FORWARDED_FOR = some []) →
      alook (init_header req) X_FORWARDED_FOR = some req.peer) := by
  have hff := alook_init_header_fwd_for req
  refine ⟨?_, ?_, ?_⟩
  · exact keyCount_eq_one _ _ (keysDistinct_init_header req)
      (alook_some_mem _ _ _ hff)
  · intro v hv hne
    rw [hff]
    simp [forwardForValue, hv, hne]
  · rintro (hv | hv) <;> rw [hff] <;> simp [forwardForValue, hv]

theorem forwarded_for_header_amended_witness :
    alook (init_header ⟨[(X_FORWARDED_FOR, chars "10.0.0.1")],
        chars "203.0.113.5", chars "h", chars "http"⟩) X_FORWARDED_FOR
      = some (chars "10.0.0.1, 203.0.113.5") ∧
    alook (init_header ⟨[], chars "203.0.113.5", chars "h", chars "http"⟩)
        X_FORWARDED_FOR = some (chars "203.0.113.5") ∧
    keyCount (init_header ⟨[(X_FORWARDED_FOR, chars "10.0.0.1")],
        chars "203.0.113.5", chars "h", chars "http"⟩) X_FORWARDED_FOR = 1 := by
  refine ⟨?_, ?_, ?_⟩
  · have h := (forwarded_for_header_amended ⟨[(X_FORWARDED_FOR, chars "10.0.0.1")],
      chars "203.0.113.5", chars "h", chars "http"⟩).2.1 (chars "10.0.0.1")
      (by decide) (by decide)
    rw [h]; decide
  · exact (forwarded_for_header_amended ⟨[], chars "203.0.113.5", chars "h",
      chars "http"⟩).2.2 (Or.inl (by decide))
  · exact (forwarded_for_header_amended ⟨[(X_FORWARDED_FOR, chars "10.0.0.1")],
      chars "203.0.113.5", chars "h", chars "http"⟩).1

/-- C6 counterexample: `X-Forwarded-For` is not one of the six dropped
names, yet an inbound `X-Forwarded-For: 10.0.0.1` is not forwarded with
its original value — it is rewritten to `10.0.0.1, 1.2.3.4` — so "every
other inbound header name is present with its original value" fails. -/
theorem request_sanitizer_forwarding_rewrite_cex :
    X_FORWARDED_FOR ∉ requestFilterHeaders ∧
    alook (init_header ⟨[(X_FORWARDED_FOR, chars "10.0.0.1")], chars "1.2.3.4",
        chars "h", chars "http"⟩) X_FORWARDED_FOR
      = some (chars "10.0.0.1, 1.2.3.4") ∧
    (chars "10.0.0.1, 1.2.3.4" : Str) ≠ chars "10.0.0.1" := by decide

/-- C6 amended: the request-direction sanitizer omits the six filtered
names (`Content-Length`, `Content-Encoding` and the four
`Sec-WebSocket-*` negotiation headers) from the forwarded set, and every
other inbound header name **except the three forwarding headers** (which
are rewritten to computed values) is present in the forwarded set with
its last inbound value — its original value whenever the name occurs
once. -/
theorem request_sanitizer_drop_and_pass (req : InboundRequest) (name : Str) :
    (name ∈ requestFilterHeaders → alook (init_header req) name = none) ∧
    (name ∉ requestFilterHeaders → name ∉ forwardingHeaders →
      alook (init_header req) name = lastLook req.headers name) := by
  exact ⟨alook_init_header_none_of_filtered req name,
    alook_init_header_passthrough req name⟩

theorem request_sanitizer_drop_and_pass_witness :
    alook (init_header ⟨[(CONTENT_LENGTH, chars "5"), (chars "Accept", chars "x")],
        chars "1.2.3.4", chars "h", chars "http"⟩) CONTENT_LENGTH = none ∧
    alook (init_header ⟨[(CONTENT_LENGTH, chars "5"), (chars "Accept", chars "x")],
        chars "1.2.3.4", chars "h", chars "http"⟩) (chars "Accept")
      = some (chars "x") := by
  constructor
  · exact (request_sanitizer_drop_and_pass ⟨[(CONTENT_LENGTH, chars "5"),
      (chars "Accept", chars "x")], chars "1.2.3.4", chars "h", chars "http"⟩
      CONTENT_LENGTH).1 (by decide)
  · have h := (request_sanitizer_drop_and_pass ⟨[(CONTENT_LENGTH, chars "5"),
      (chars "Accept", chars "x")], chars "1.2.3.4", chars "h", chars "http"⟩
      (chars "Accept")).2 (by decide) (by decide)
    rw [h]; decide

/-- C7 counterexample: an upstream response carrying two `Set-Cookie`
values keeps only the last one in the outbound set (the sanitizer builds
a single-valued `dict`), so "passes every other header through
unmodified" fails on multi-valued collections. -/
theorem response_sanitizer_duplicate_cex :
    response_header [(chars "Set-Cookie", chars "a"), (chars "Set-Cookie", chars "b")]
      = [(chars "Set-Cookie", chars "b")] ∧
    (chars "Set-Cookie", chars "a") ∉
      response_header [(chars "Set-Cookie", chars "a"), (chars "Set-Cookie", chars "b")] ∧
    chars "Set-Cookie" ∉ responseFilterHeaders := by decide

/-- C7 amended: the response-direction sanitizer omits
`Transfer-Encoding`, `Content-Type` and `Content-Encoding` from the
outbound set; every other upstream header name is present outbound with
its last upstream value (unchanged whenever the name occurs once, but
duplicate values for a name collapse to the last since the outbound set
is a single-valued `dict`); in particular `Content-Length` is kept. -/
theorem response_sanitizer_drop_and_pass (headers : List (Str × Str)) (name : Str) :
    (name ∈ responseFilterHeaders → alook (response_header headers) name = none) ∧
    (name ∉ responseFilterHeaders →
      alook (response_header headers) name = lastLook headers name) ∧
    (CONTENT_LENGTH ∉ responseFilterHeaders ∧
      alook (response_header headers) CONTENT_LENGTH
        = lastLook headers CONTENT_LENGTH) := by
  exact ⟨alook_response_header_none headers name,
    alook_response_header_passthrough headers name,
    by decide,
    alook_response_header_passthrough headers CONTENT_LENGTH (by decide)⟩

theorem response_sanitizer_drop_and_pass_witness :
    alook (response_header [(TRANSFER_ENCODING, chars "chunked"),
        (CONTENT_LENGTH, chars "7"), (chars "ETag", chars "q")])
      TRANSFER_ENCODING = none ∧
    alook (response_header [(TRANSFER_ENCODING, chars "chunked"),
        (CONTENT_LENGTH, chars "7"), (chars "ETag", chars "q")])
      (chars "ETag") = some (chars "q") ∧
    alook (response_header [(TRANSFER_ENCODING, chars "chunked"),
        (CONTENT_LENGTH, chars "7"), (chars "ETag", chars "q")])
      CONTENT_LENGTH = some (chars "7") := by
  refine ⟨?_, ?_, ?_⟩
  · exact (response_sanitizer_drop_and_pass [(TRANSFER_ENCODING, chars "chunked"),
      (CONTENT_LENGTH, chars "7"), (chars "ETag", chars "q")]
      TRANSFER_ENCODING).1 (by decide)
  · have h := (response_sanitizer_drop_and_pass [(TRANSFER_ENCODING, chars "chunked"),
      (CONTENT_LENGTH, chars "7"), (chars "ETag", chars "q")]
      (chars "ETag")).2.1 (by decide)
    rw [h]; decide
  · have h := (response_sanitizer_drop_and_pass [(TRANSFER_ENCODING, chars "chunked"),
      (CONTENT_LENGTH, chars "7"), (chars "ETag", chars "q")]
      (chars "ETag")).2.2.2
    rw [h]; decide

/-- C8 counterexample: an inbound collection carrying `Accept` twice
(`a` then `b`) is forwarded with a single `Accept` entry holding `b`
only — the pair `(Accept, a)` is gone — so "preserves all of those
values in their original order" fails. -/
theorem request_sanitizer_multiplicity_cex :
    init_header ⟨[(chars "Accept", chars "a"), (chars "Accept", chars "b")],
        chars "1.2.3.4", chars "h", chars "http"⟩
      = [(chars "Accept", chars "b"), (X_FORWARDED_FOR, chars "1.2.3.4"),
         (X_FORWARDED_HOST, chars "h"), (X_FORWARDED_PROTO, chars "http")] ∧
    (chars "Accept", chars "a") ∉
      init_header ⟨[(chars "Accept", chars "a"), (chars "Accept", chars "b")],
        chars "1.2.3.4", chars "h", chars "http"⟩ := by decide

/-- C8 amended: the forwarded set holds each header name at most once
(Python `dict` semantics): a name occurring with multiple inbound values
keeps only the last value rather than all of them in order, and the three
forwarding headers are always rewritten to exactly one computed value
each. -/
theorem request_sanitizer_single_valued (req : InboundRequest) :
    keysDistinct (init_header req) ∧
    (∀ name, name ∉ requestFilterHeaders → name ∉ forwardingHeaders →
      alook (init_header req) name = lastLook req.headers name) ∧
    (∀ name, name ∈ forwardingHeaders → keyCount (init_header req) name = 1) := by
  refine ⟨keysDistinct_init_header req, alook_init_header_passthrough req, ?_⟩
  intro name hf
  simp only [forwardingHeaders, List.mem_cons, List.not_mem_nil, or_false] at hf
  rcases hf with rfl | rfl | rfl
  · exact keyCount_eq_one _ _ (keysDistinct_init_header req)
      (alook_some_mem _ _ _ (alook_init_header_fwd_for req))
  · exact keyCount_eq_one _ _ (keysDistinct_init_header req)
      (alook_some_mem _ _ _ (alook_init_header_fwd_host req))
  · exact keyCount_eq_one _ _ (keysDistinct_init_header req)
      (alook_some_mem _ _ _ (alook_init_header_fwd_proto req))

theorem request_sanitizer_single_valued_witness :
    alook (init_header ⟨[(chars "Accept", chars "a"), (chars "Accept", chars "b")],
        chars "1.2.3.4", chars "h", chars "http"⟩) (chars "Accept")
      = some (chars "b") ∧
    keyCount (init_header ⟨[(chars "Accept", chars "a"), (chars "Accept", chars "b")],
        chars "1.2.3.4", chars "h", chars "http"⟩) X_FORWARDED_FOR = 1 := by
  constructor
  · have h := (request_sanitizer_single_valued ⟨[(chars "Accept", chars "a"),
      (chars "Accept", chars "b")], chars "1.2.3.4", chars "h", chars "http"⟩).2.1
      (chars "Accept") (by decide) (by decide)
    rw [h]; decide
  · exact (request_sanitizer_single_valued ⟨[(chars "Accept", chars "a"),
      (chars "Accept", chars "b")], chars "1.2.3.4", chars "h", chars "http"⟩).2.2
      X_FORWARDED_FOR (by decide)

theorem mem_takeWhile_mem (p : Char → Bool) (l : Str) (a : Char)
    (h : a ∈ l.takeWhile p) : a ∈ l := by
  induction l with
  | nil => simp at h
  | cons c cs ih =>
    by_cases hc : p c = true
    · rw [List.takeWhile_cons, if_pos hc] at h
      rcases List.mem_cons.mp h with rfl | h2
      · exact List.mem_cons_self _ _
      · exact List.mem_cons_of_mem _ (ih h2)
    · rw [List.takeWhile_cons, if_neg hc] at h
      simp at h

theorem mem_takeWhile_pred (p : Char → Bool) (l : Str) (a : Char)
    (h : a ∈ l.takeWhile p) : p a = true := by
  induction l with
  | nil => simp at h
  | cons c cs ih =>
    by_cases hc : p c = true
    · rw [List.takeWhile_cons, if_pos hc] at h
      rcases List.mem_cons.mp h with rfl | h2
      · exact hc
      · exact ih h2
    · rw [List.takeWhile_cons, if_neg hc] at h
      simp at h

/-- Characters that CPython URL resolution copies through unchanged
inside a path: everything except the query and fragment delimiters, the
params separator, and the unsafe bytes `urlsplit` removes. -/
def urlPlainChar (c : Char) : Bool :=
  !(c == '?' || c == '#' || c == ';' || isUnsafeUrlChar c)

/-- A captured rest-of-path is plain when all its characters are plain
and none of its `/`-separated segments is `.` or `..`. -/
def pathPlain (path : Str) : Prop :=
  (∀ c ∈ path, urlPlainChar c = true) ∧
  ∀ s ∈ splitChar '/' path, s ≠ chars "." ∧ s ≠ chars ".."

/-- A single captured value (an event id) is plain when its characters
are plain, include no `/`, and the value is not a dot segment. -/
def segmentPlain (s : Str) : Prop :=
  (∀ c ∈ s, urlPlainChar c = true ∧ c ≠ '/') ∧ s ≠ chars "." ∧ s ≠ chars ".."

instance (n : Str) : Decidable (netlocPlain n) :=
  decidable_of_iff (n ≠ [] ∧ ∀ c ∈ n,
    c ≠ '/' ∧ c ≠ '?' ∧ c ≠ '#' ∧ isUnsafeUrlChar c = false) Iff.rfl

instance (path : Str) : Decidable (pathPlain path) :=
  decidable_of_iff ((∀ c ∈ path, urlPlainChar c = true) ∧
    ∀ s ∈ splitChar '/' path, s ≠ chars "." ∧ s ≠ chars "..") Iff.rfl

instance (s : Str) : Decidable (segmentPlain s) :=
  decidable_of_iff ((∀ c ∈ s, urlPlainChar c = true ∧ c ≠ '/') ∧
    s ≠ chars "." ∧ s ≠ chars "..") Iff.rfl

theorem urlPlainChar_spec (c : Char) (h : urlPlainChar c = true) :
    c ≠ '?' ∧ c ≠ '#' ∧ c ≠ ';' ∧ isUnsafeUrlChar c = false := by
  simp only [urlPlainChar, Bool.not_eq_true', Bool.or_eq_false_iff,
    beq_eq_false_iff_ne] at h
  exact ⟨h.1.1.1, h.1.1.2, h.1.2, h.2⟩

theorem urlparse_http_abs_of_plain (c0 : Char) (rest0 : Str)
    (hh1 : c0 ≠ '/')
    (hall : ∀ c ∈ '/' :: c0 :: rest0, urlPlainChar c = true) :
    urlparse (chars "http") ('/' :: c0 :: rest0) =
      ⟨chars "http", [], '/' :: c0 :: rest0, [], [], []⟩ := by
  refine urlparse_http_abs_rel c0 rest0 ?_ hh1 ?_ ?_ ?_
  · exact stripUnsafe_eq_self _ fun c hc => (urlPlainChar_spec c (hall c hc)).2.2.2
  · intro hm; exact (urlPlainChar_spec _ (hall _ hm)).1 rfl
  · intro hm; exact (urlPlainChar_spec _ (hall _ hm)).2.1 rfl
  · intro hm; exact (urlPlainChar_spec _ (hall _ hm)).2.2.1 rfl

theorem urljoin_http_abs_of_plain (netloc : Str) (hn : netlocPlain netloc)
    (c0 : Char) (rest0 : Str) (hh1 : c0 ≠ '/')
    (hall : ∀ c ∈ '/' :: c0 :: rest0, urlPlainChar c = true)
    (hseg : ∀ s ∈ splitChar '/' (c0 :: rest0), s ≠ chars "." ∧ s ≠ chars "..") :
    urljoin (chars "http://" ++ netloc) ('/' :: c0 :: rest0)
      = chars "http://" ++ netloc ++ ('/' :: c0 :: rest0) ∧
    urljoin (chars "http://" ++ netloc ++ chars "/") ('/' :: c0 :: rest0)
      = chars "http://" ++ netloc ++ ('/' :: c0 :: rest0) := by
  have hbne : chars "http://" ++ netloc ≠ [] := by
    show 'h' :: _ ≠ []
    exact List.cons_ne_nil _ _
  have hbne2 : chars "http://" ++ netloc ++ chars "/" ≠ [] := by
    show 'h' :: _ ≠ []
    exact List.cons_ne_nil _ _
  have hune : ('/' :: c0 :: rest0 : Str) ≠ [] := List.cons_ne_nil _ _
  have hrel := urlparse_http_abs_of_plain c0 rest0 hh1 hall
  constructor
  · rw [urljoin_eq_joinParts _ _ hbne hune, urlparse_http_base netloc hn]
    rw [show (ParseResult.mk (chars "http") netloc [] [] [] []).scheme
        = chars "http" from rfl]
    rw [hrel]
    exact joinParts_http_abs netloc [] [] (c0 :: rest0) hn.1 hseg
  · rw [urljoin_eq_joinParts _ _ hbne2 hune, urlparse_http_base_slash netloc hn]
    rw [show (ParseResult.mk (chars "http") netloc (chars "/") [] [] []).scheme
        = chars "http" from rfl]
    rw [hrel]
    exact joinParts_http_abs netloc (chars "/") [] (c0 :: rest0) hn.1 hseg

/-- C9 counterexample: for the configured base `http://h/sub/` (trailing
slash, non-empty base path) the Clips route resolves path `x` to
`http://h/clips/x` — standard absolute-path-reference resolution replaces
the base's entire path, so the base's `/sub/` component is discarded and
the result is not the base extended by `/clips/x`. -/
theorem clips_url_base_path_discarded_cex :
    ClipsProxyView_create_url (chars "http://h/sub/") (chars "x")
      = chars "http://h/clips/x" ∧
    ClipsProxyView_create_url (chars "http://h/sub/") (chars "x")
      ≠ chars "http://h/sub/clips/x" := by decide

/-- C9 amended: every route kind resolves by standard base-plus-relative
resolution of a leading-slash relative part, which replaces the base
URL's entire path.  For a base `http://netloc` — with or without a
trailing slash — and captured parameters whose characters URL resolution
copies through unchanged (no `?`, `#`, `;`, tab/CR/LF) and which form no
`.`/`..` segments, the result is exactly the base authority followed by
the route's relative path — `base/clips/{path}`, `base/recordings/{path}`,
`base/api/events/{event_id}/thumbnail.jpg`,
`base/api/events/{event_id}/snapshot.jpg`,
`base/clips/{camera}-{event_id}.mp4` — with neither a doubled nor a
missing slash; a base with a non-empty path has its path components
discarded, not preserved. -/
theorem route_url_resolution_amended (netloc : Str) (hn : netlocPlain netloc) :
    (∀ path, pathPlain path →
      ClipsProxyView_create_url (chars "http://" ++ netloc) path
        = chars "http://" ++ netloc ++ (chars "/clips/" ++ path) ∧
      ClipsProxyView_create_url (chars "http://" ++ netloc ++ chars "/") path
        = chars "http://" ++ netloc ++ (chars "/clips/" ++ path)) ∧
    (∀ path, pathPlain path →
      RecordingsProxyView_create_url (chars "http://" ++ netloc) path
        = chars "http://" ++ netloc ++ (chars "/recordings/" ++ path) ∧
      RecordingsProxyView_create_url (chars "http://" ++ netloc ++ chars "/") path
        = chars "http://" ++ netloc ++ (chars "/recordings/" ++ path)) ∧
    (∀ event_id, segmentPlain event_id →
      NotificationsProxyView_create_url (chars "http://" ++ netloc) event_id
          (chars "thumbnail.jpg")
        = some (chars "http://" ++ netloc ++
            (chars "/api/events/" ++ event_id ++ chars "/thumbnail.jpg")) ∧
      NotificationsProxyView_create_url (chars "http://" ++ netloc) event_id
          (chars "snapshot.jpg")
        = some (chars "http://" ++ netloc ++
            (chars "/api/events/" ++ event_id ++ chars "/snapshot.jpg"))) ∧
    (∀ event_id path, segmentPlain event_id →
      (∀ c ∈ path, urlPlainChar c = true) →
      (∃ t, path = t ++ chars "clip.mp4") →
      NotificationsProxyView_create_url (chars "http://" ++ netloc) event_id path
        = some (chars "http://" ++ netloc ++ (chars "/clips/" ++
            path.takeWhile (fun c => !decide (c = '/')) ++ chars "-" ++
            event_id ++ chars ".mp4"))) := by
  refine ⟨?_, ?_, ?_, ?_⟩
  · intro path hp
    have hall : ∀ c ∈ chars "/clips/" ++ path, urlPlainChar c = true := by
      intro c hc
      rcases List.mem_append.mp hc with h | h
      · exact (by decide : ∀ c ∈ chars "/clips/", urlPlainChar c = true) c h
      · exact hp.1 c h
    have hseg : ∀ s ∈ splitChar '/' (chars "clips/" ++ path),
        s ≠ chars "." ∧ s ≠ chars ".." := by
      have hd : splitChar '/' (chars "clips/" ++ path)
          = chars "clips" :: splitChar '/' path := by
        rw [show chars "clips/" ++ path = chars "clips" ++ '/' :: path from rfl,
            splitChar_append_cons '/' (chars "clips") path (by decide)]
      intro s hs
      rw [hd] at hs
      rcases List.mem_cons.mp hs with rfl | h2
      · exact ⟨by decide, by decide⟩
      · exact hp.2 s h2
    exact urljoin_http_abs_of_plain netloc hn 'c' (chars "lips/" ++ path)
      (by decide) hall hseg
  · intro path hp
    have hall : ∀ c ∈ chars "/recordings/" ++ path, urlPlainChar c = true := by
      intro c hc
      rcases List.mem_append.mp hc with h | h
      · exact (by decide : ∀ c ∈ chars "/recordings/", urlPlainChar c = true) c h
      · exact hp.1 c h
    have hseg : ∀ s ∈ splitChar '/' (chars "recordings/" ++ path),
        s ≠ chars "." ∧ s ≠ chars ".." := by
      have hd : splitChar '/' (chars "recordings/" ++ path)
          = chars "recordings" :: splitChar '/' path := by
        rw [show chars "recordings/" ++ path
            = chars "recordings" ++ '/' :: path from rfl,
            splitChar_append_cons '/' (chars "recordings") path (by decide)]
      intro s hs
      rw [hd] at hs
      rcases List.mem_cons.mp hs with rfl | h2
      · exact ⟨by decide, by decide⟩
      · exact hp.2 s h2
    exact urljoin_http_abs_of_plain netloc hn 'r' (chars "ecordings/" ++ path)
      (by decide) hall hseg
  · intro e he
    obtain ⟨hec, he1, he2⟩ := he
    have hens : '/' ∉ e := fun hm => (hec '/' hm).2 rfl
    constructor
    · have hall : ∀ c ∈ chars "/api/events/" ++ e ++ chars "/thumbnail.jpg",
          urlPlainChar c = true := by
        intro c hc
        rcases List.mem_append.mp hc with h | h
        · rcases List.mem_append.mp h with h2 | h2
          · exact (by decide : ∀ c ∈ chars "/api/events/",
              urlPlainChar c = true) c h2
          · exact (hec c h2).1
        · exact (by decide : ∀ c ∈ chars "/thumbnail.jpg",
            urlPlainChar c = true) c h
      have hd : splitChar '/' (chars "api/events/" ++ (e ++ chars "/thumbnail.jpg"))
          = chars "api" :: chars "events" :: e :: [chars "thumbnail.jpg"] := by
        rw [show chars "api/events/" ++ (e ++ chars "/thumbnail.jpg")
            = chars "api" ++ '/' ::
              (chars "events" ++ '/' :: (e ++ '/' :: chars "thumbnail.jpg"))
            from rfl,
            splitChar_append_cons '/' (chars "api") _ (by decide),
            splitChar_append_cons '/' (chars "events") _ (by decide),
            splitChar_append_cons '/' e _ hens,
            splitChar_no_sep '/' (chars "thumbnail.jpg") (by decide)]
      have hseg : ∀ s ∈ splitChar '/'
            (chars "api/events/" ++ (e ++ chars "/thumbnail.jpg")),
          s ≠ chars "." ∧ s ≠ chars ".." := by
        intro s hs
        rw [hd] at hs
        rcases List.mem_cons.mp hs with rfl | hs
        · exact ⟨by decide, by decide⟩
        rcases List.mem_cons.mp hs with rfl | hs
        · exact ⟨by decide, by decide⟩
        rcases List.mem_cons.mp hs with rfl | hs
        · exact ⟨he1, he2⟩
        rcases List.mem_cons.mp hs with rfl | hs
        · exact ⟨by decide, by decide⟩
        · simp at hs
      exact congrArg some (urljoin_http_abs_of_plain netloc hn 'a'
        (chars "pi/events/" ++ (e ++ chars "/thumbnail.jpg")) (by decide)
        hall hseg).1
    · have hall : ∀ c ∈ chars "/api/events/" ++ e ++ chars "/snapshot.jpg",
          urlPlainChar c = true := by
        intro c hc
        rcases List.mem_append.mp hc with h | h
        · rcases List.mem_append.mp h with h2 | h2
          · exact (by decide : ∀ c ∈ chars "/api/events/",
              urlPlainChar c = true) c h2
          · exact (hec c h2).1
        · exact (by decide : ∀ c ∈ chars "/snapshot.jpg",
            urlPlainChar c = true) c h
      have hd : splitChar '/' (chars "api/events/" ++ (e ++ chars "/snapshot.jpg"))
          = chars "api" :: chars "events" :: e :: [chars "snapshot.jpg"] := by
        rw [show chars "api/events/" ++ (e ++ chars "/snapshot.jpg")
            = chars "api" ++ '/' ::
              (chars "events" ++ '/' :: (e ++ '/' :: chars "snapshot.jpg"))
            from rfl,
            splitChar_append_cons '/' (chars "api") _ (by decide),
            splitChar_append_cons '/' (chars "events") _ (by decide),
            splitChar_append_cons '/' e _ hens,
            splitChar_no_sep '/' (chars "snapshot.jpg") (by decide)]
      have hseg : ∀ s ∈ splitChar '/'
            (chars "api/events/" ++ (e ++ chars "/snapshot.jpg")),
          s ≠ chars "." ∧ s ≠ chars ".." := by
        intro s hs
        rw [hd] at hs
        rcases List.mem_cons.mp hs with rfl | hs
        · exact ⟨by decide, by decide⟩
        rcases List.mem_cons.mp hs with rfl | hs
        · exact ⟨by decide, by decide⟩
        rcases List.mem_cons.mp hs with rfl | hs
        · exact ⟨he1, he2⟩
        rcases List.mem_cons.mp hs with rfl | hs
        · exact ⟨by decide, by decide⟩
        · simp at hs
      exact congrArg some (urljoin_http_abs_of_plain netloc hn 'a'
        (chars "pi/events/" ++ (e ++ chars "/snapshot.jpg")) (by decide)
        hall hseg).1
  · intro e path he hpc hend
    obtain ⟨hec, he1, he2⟩ := he
    have hendB : endsWithB path (chars "clip.mp4") = true :=
      (endsWithB_iff _ _).mpr hend
    have h1 : path ≠ chars "thumbnail.jpg" := by
      intro h; rw [h] at hendB; exact absurd hendB (by decide)
    have h2 : path ≠ chars "snapshot.jpg" := by
      intro h; rw [h] at hendB; exact absurd hendB (by decide)
    have hcam : ∀ c ∈ path.takeWhile (fun c => !decide (c = '/')),
        urlPlainChar c = true ∧ c ≠ '/' := by
      intro c hc
      refine ⟨hpc c (mem_takeWhile_mem _ _ _ hc), ?_⟩
      have := mem_takeWhile_pred _ _ _ hc
      simpa using this
    have hall : ∀ c ∈ chars "/clips/" ++
          path.takeWhile (fun c => !decide (c = '/')) ++ chars "-" ++ e ++
          chars ".mp4",
        urlPlainChar c = true := by
      intro c hc
      rcases List.mem_append.mp hc with h | h
      · rcases List.mem_append.mp h with h | h
        · rcases List.mem_append.mp h with h | h
          · rcases List.mem_append.mp h with h | h
            · exact (by decide : ∀ c ∈ chars "/clips/",
                urlPlainChar c = true) c h
            · exact (hcam c h).1
          · exact (by decide : ∀ c ∈ chars "-", urlPlainChar c = true) c h
        · exact (hec c h).1
      · exact (by decide : ∀ c ∈ chars ".mp4", urlPlainChar c = true) c h
    have hnoslash : '/' ∉
        path.takeWhile (fun c => !decide (c = '/')) ++ chars "-" ++ e ++
          chars ".mp4" := by
      intro hm
      rcases List.mem_append.mp hm with h | h
      · rcases List.mem_append.mp h with h | h
        · rcases List.mem_append.mp h with h | h
          · exact (hcam '/' h).2 rfl
          · exact absurd h (by decide)
        · exact (hec '/' h).2 rfl
      · exact absurd h (by decide)
    have hlen : 5 ≤ (path.takeWhile (fun c => !decide (c = '/')) ++ chars "-"
        ++ e ++ chars ".mp4").length := by
      rw [List.length_append, List.length_append, List.length_append,
          show (chars "-").length = 1 from by decide,
          show (chars ".mp4").length = 4 from by decide]
      omega
    have hseg : ∀ s ∈ splitChar '/' (chars "clips/" ++
          (path.takeWhile (fun c => !decide (c = '/')) ++ chars "-" ++ e ++
            chars ".mp4")),
        s ≠ chars "." ∧ s ≠ chars ".." := by
      have hd : splitChar '/' (chars "clips/" ++
            (path.takeWhile (fun c => !decide (c = '/')) ++ chars "-" ++ e ++
              chars ".mp4"))
          = chars "clips" :: [path.takeWhile (fun c => !decide (c = '/')) ++
              chars "-" ++ e ++ chars ".mp4"] := by
        rw [show chars "clips/" ++
              (path.takeWhile (fun c => !decide (c = '/')) ++ chars "-" ++ e ++
                chars ".mp4")
            = chars "clips" ++ '/' ::
              (path.takeWhile (fun c => !decide (c = '/')) ++ chars "-" ++ e ++
                chars ".mp4") from rfl,
            splitChar_append_cons '/' (chars "clips") _ (by decide),
            splitChar_no_sep '/' _ hnoslash]
      intro s hs
      rw [hd] at hs
      rcases List.mem_cons.mp hs with rfl | hs
      · exact ⟨by decide, by decide⟩
      rcases List.mem_cons.mp hs with rfl | hs
      · constructor
        · intro h
          rw [h, show (chars ".").length = 1 from by decide] at hlen
          omega
        · intro h
          rw [h, show (chars "..").length = 2 from by decide] at hlen
          omega
      · simp at hs
    have hjoin := (urljoin_http_abs_of_plain netloc hn 'c'
      (chars "lips/" ++ (path.takeWhile (fun c => !decide (c = '/')) ++
        chars "-" ++ e ++ chars ".mp4")) (by decide) hall hseg).1
    show NotificationsProxyView_create_url _ _ _ = _
    rw [NotificationsProxyView_create_url, if_neg h1, if_neg h2]
    simp only [if_pos hendB, splitChar_head_takeWhile]
    exact congrArg some hjoin

theorem route_url_resolution_amended_witness :
    ClipsProxyView_create_url (chars "http://" ++ chars "frigate:5000")
        (chars "front/x.mp4") = chars "http://frigate:5000/clips/front/x.mp4" ∧
    ClipsProxyView_create_url (chars "http://" ++ chars "frigate:5000" ++ chars "/")
        (chars "front/x.mp4") = chars "http://frigate:5000/clips/front/x.mp4" ∧
    RecordingsProxyView_create_url (chars "http://" ++ chars "frigate:5000")
        (chars "2023-01/01/") = chars "http://frigate:5000/recordings/2023-01/01/" ∧
    NotificationsProxyView_create_url (chars "http://" ++ chars "frigate:5000")
        (chars "ev1") (chars "thumbnail.jpg")
      = some (chars "http://frigate:5000/api/events/ev1/thumbnail.jpg") ∧
    NotificationsProxyView_create_url (chars "http://" ++ chars "frigate:5000")
        (chars "ev1") (chars "cam1/clip.mp4")
      = some (chars "http://frigate:5000/clips/cam1-ev1.mp4") := by
  have h := route_url_resolution_amended (chars "frigate:5000") (by decide)
  refine ⟨?_, ?_, ?_, ?_, ?_⟩
  · rw [(h.1 (chars "front/x.mp4") (by decide)).1]; decide
  · rw [(h.1 (chars "front/x.mp4") (by decide)).2]; decide
  · rw [(h.2.1 (chars "2023-01/01/") (by decide)).1]; decide
  · rw [(h.2.2.1 (chars "ev1") (by decide)).1]; decide
  · rw [h.2.2.2 (chars "ev1") (chars "cam1/clip.mp4") (by decide) (by decide)
      ⟨chars "cam1/", by decide⟩]
    decide

end FrigateProxy
